import Mathlib

/-!
# Verification of the word-ladder core

Shallow embedding of the word-ladder engine:

* `WordTransformer.generate_transformations`  (wordLadderDistanceMapping.py, lines 30-63)
* `WordLadderGraph.distance`                  (wordLadderDistanceMapping.py, lines 80-118)
* `WordLadderVisualizer._find_components`     (wordLadderDistanceMapping.py, lines 164-191)
* `WordLadderFinder._generate_transformations` (wordLadderPathExample.py, lines 52-78)
* `WordLadderFinder.find_paths`               (wordLadderPathExample.py, lines 80-130)

Words are modelled as lists of characters (Python strings are sequences of
characters).  Python `set` return values are modelled as `Finset`, with the
underlying generation order kept as a `List` where iteration order matters;
Python `set` iteration order is unspecified, so fixing the enumeration order of
a `List` is a legitimate refinement.  The finite dictionary is modelled as a
`List Word` (its order refines the unspecified iteration order of the Python
set; membership is order-independent).  The mutable distance cache is threaded
explicitly as an association list with shadowing on the left, matching
dictionary-assignment overwrite semantics.
-/

namespace WordLadder

abbrev Word := List Char

/-- `string.ascii_lowercase`, the alphabet used by both transformers. -/
def alphabet : List Char :=
  ['a','b','c','d','e','f','g','h','i','j','k','l','m',
   'n','o','p','q','r','s','t','u','v','w','x','y','z']

/-- The apostrophe character (code point 39). -/
def apos : Char := Char.ofNat 39

/-- The possessive marker appended or stripped by the transformer. -/
def possessiveSuffix : Word := [apos, 's']

/-- `word[:position] + s + word[position:]` — insert a string at a position. -/
def insertStrAt (w : Word) (p : Nat) (s : Word) : Word :=
  w.take p ++ s ++ w.drop p

/-- `word[:position] + word[position+1:]` — remove the character at a position. -/
def removeAt (w : Word) (p : Nat) : Word :=
  w.take p ++ w.drop (p + 1)

/-- `word[:position] + s + word[position+1:]` — replace the character at a position. -/
def substStrAt (w : Word) (p : Nat) (s : Word) : Word :=
  w.take p ++ s ++ w.drop (p + 1)

/-- The possessive-toggle candidates of `WordTransformer.generate_transformations`
(lines 43-47): strip `"'s"` when the word ends with it, append it otherwise. -/
def possList (w : Word) : List Word :=
  if possessiveSuffix.isSuffixOf w then [w.take (w.length - 2)]
  else [w ++ possessiveSuffix]

/-- Enumeration underlying `WordTransformer.generate_transformations`
(lines 40-63): possessive toggle, then insertions, deletions, substitutions,
each over `self.alphabet`. -/
def transformsList (ap : Bool) (w : Word) : List Word :=
  (if ap then possList w else [])
    ++ (List.range (w.length + 1)).flatMap (fun p => alphabet.map (fun c => insertStrAt w p [c]))
    ++ (List.range w.length).map (fun p => removeAt w p)
    ++ (List.range w.length).flatMap (fun p => alphabet.map (fun c => substStrAt w p [c]))

/-- `WordTransformer.generate_transformations(word)` — the returned Python set. -/
def generate_transformations (ap : Bool) (w : Word) : Finset Word :=
  (transformsList ap w).toFinset

/-- Default `valid_additions` of `WordLadderFinder.__init__` (line 50):
the lowercase letters followed by the string `"'s"`. -/
def defaultAdditions : List Word :=
  alphabet.map (fun c => [c]) ++ [possessiveSuffix]

/-- Enumeration underlying `WordLadderFinder._generate_transformations`
(lines 62-78): insertions, deletions, then substitutions, the insertions and
substitutions ranging over `self.valid_additions`. -/
def finderTransformsList (adds : List Word) (w : Word) : List Word :=
  (List.range (w.length + 1)).flatMap (fun p => adds.map (fun s => insertStrAt w p s))
    ++ (List.range w.length).map (fun p => removeAt w p)
    ++ (List.range w.length).flatMap (fun p => adds.map (fun s => substStrAt w p s))

/-- `WordLadderFinder._generate_transformations(word)` — the returned Python set. -/
def finder_generate_transformations (adds : List Word) (w : Word) : Finset Word :=
  (finderTransformsList adds w).toFinset

/-- Result of `WordLadderGraph.distance`: a non-negative integer or
`float('inf')`. -/
inductive Dist where
  | fin : Nat → Dist
  | inf : Dist
deriving DecidableEq, Repr

/-- The `_distance_cache` dictionary: an association list, later writes
shadowing earlier ones on lookup. -/
abbrev Cache := List ((Word × Word) × Dist)

def cacheLookup (c : Cache) (k : Word × Word) : Option Dist :=
  match c with
  | [] => none
  | (k0, v) :: rest => if k0 = k then some v else cacheLookup rest k

/-- Python string comparison: lexicographic on code points, a proper prefix
being smaller. -/
def wordLt : Word → Word → Bool
  | [], [] => false
  | [], _ :: _ => true
  | _ :: _, [] => false
  | a :: as, b :: bs => if a < b then true else if b < a then false else wordLt as bs

/-- `tuple(sorted([word1, word2]))` (line 92). -/
def sortPair (a b : Word) : Word × Word :=
  if wordLt b a then (b, a) else (a, b)

/-- The body of the `for new_word in ...` loop of `WordLadderGraph.distance`
(lines 108-115) restricted to the non-target branch: thread the `seen` set
through the generated words, collecting `(new_word, d)` queue entries for the
words that are in the dictionary and unseen.  (In the source the queue grows
while iterating; collecting the additions and appending them afterwards is the
same FIFO order.) -/
def pushNew (D : List Word) : List Word → Finset Word → Nat → Finset Word × List (Word × Nat)
  | [], seen, _ => (seen, [])
  | w :: ws, seen, d =>
      if w ∈ D ∧ w ∉ seen then
        let r := pushNew D ws (insert w seen) d
        (r.1, (w, d) :: r.2)
      else pushNew D ws seen d

theorem pushNew_measure (D : List Word) (ws : List Word) (seen : Finset Word) (d : Nat) :
    (D.toFinset \ (pushNew D ws seen d).1).card + (pushNew D ws seen d).2.length
      ≤ (D.toFinset \ seen).card := by
  induction ws generalizing seen with
  | nil => simp [pushNew]
  | cons w ws ih =>
    by_cases h : w ∈ D ∧ w ∉ seen
    · have h2 := ih (insert w seen)
      have hw : w ∈ D.toFinset \ seen := by
        simp only [Finset.mem_sdiff, List.mem_toFinset]
        exact ⟨h.1, h.2⟩
      have hcard : ((D.toFinset \ seen).erase w).card + 1 = (D.toFinset \ seen).card :=
        Finset.card_erase_add_one hw
      rw [← Finset.sdiff_insert] at hcard
      simp only [pushNew, if_pos h, List.length_cons]
      omega
    · simpa only [pushNew, if_neg h] using ih seen

/-- The BFS `while queue:` loop of `WordLadderGraph.distance` (lines 101-118).
Within one dequeue the early return `if new_word == word2` fires exactly when
the target occurs anywhere in the generated set, so it is checked up front;
otherwise every generated word that is in the dictionary and unseen is marked
seen and enqueued at distance `d + 1`.  The loop terminates because each
iteration strictly decreases `(D.toFinset \ seen).card + queue.length`
(`pushNew_measure`); recursion is on a fuel parameter kept strictly above that
measure, so the fuel-exhausted branch is never taken (`bfsLoop_fuel`). -/
def bfsLoop (D : List Word) (ap : Bool) (target : Word) :
    Nat → List (Word × Nat) → Finset Word → Dist
  | 0, _, _ => .inf
  | _ + 1, [], _ => .inf
  | fuel + 1, (cur, d) :: rest, seen =>
      if target ∈ transformsList ap cur then .fin (d + 1)
      else
        let r := pushNew D (transformsList ap cur) seen (d + 1)
        bfsLoop D ap target fuel (rest ++ r.2) r.1

/-- Any two fuel values strictly above the loop measure give the same result:
the fuel parameter is a termination device, not part of the modelled code. -/
theorem bfsLoop_fuel (D : List Word) (ap : Bool) (target : Word) :
    ∀ f g q seen, (D.toFinset \ seen).card + q.length < f →
      (D.toFinset \ seen).card + q.length < g →
      bfsLoop D ap target f q seen = bfsLoop D ap target g q seen := by
  intro f
  induction f with
  | zero => intro g q seen hf; omega
  | succ f ih =>
    intro g q seen hf hg
    obtain ⟨g, rfl⟩ : ∃ g0, g = g0 + 1 := ⟨g - 1, by omega⟩
    match q with
    | [] => rfl
    | (cur, d) :: rest =>
      simp only [bfsLoop]
      by_cases ht : target ∈ transformsList ap cur
      · simp [ht]
      · simp only [if_neg ht]
        have hm := pushNew_measure D (transformsList ap cur) seen (d + 1)
        apply ih
        · simp only [List.length_append]
          simp only [List.length_cons] at hf
          omega
        · simp only [List.length_append]
          simp only [List.length_cons] at hg
          omega

/-- `WordLadderGraph.distance(word1, word2)` (lines 80-118), with the mutable
`_distance_cache` threaded explicitly: look up the order-normalized key, short
circuit on equality and on non-membership (neither writes the cache), else run
the BFS from `word1` and record the result under the key.  The BFS fuel
`D.length + 2` strictly dominates the initial measure
`(D.toFinset \ {w1}).card + 1`. -/
def distance (D : List Word) (ap : Bool) (w1 w2 : Word) (c : Cache) : Dist × Cache :=
  let key := sortPair w1 w2
  match cacheLookup c key with
  | some v => (v, c)
  | none =>
      if w1 = w2 then (.fin 0, c)
      else if w1 ∉ D ∨ w2 ∉ D then (.inf, c)
      else
        let r := bfsLoop D ap w2 (D.length + 2) [(w1, 0)] {w1}
        (r, (key, r) :: c)

/-! ## List surgery lemmas for the three edit operations -/

theorem take_get_drop (l : Word) (p : Nat) (h : p < l.length) :
    l.take p ++ [l.get ⟨p, h⟩] ++ l.drop (p + 1) = l := by
  rw [List.append_assoc, List.singleton_append]
  rw [show l.get ⟨p, h⟩ = l[p] from rfl, List.getElem_cons_drop]
  exact List.take_append_drop p l

theorem take_len_append (l b : Word) : (l ++ b).take l.length = l :=
  List.take_left l b

theorem drop_len_append (l b : Word) : (l ++ b).drop l.length = b :=
  List.drop_left l b

theorem length_take_of_le {a : Word} {p : Nat} (hp : p ≤ a.length) :
    (a.take p).length = p := by
  simp [List.length_take]
  omega

theorem length_insertStrAt (w : Word) (p : Nat) (s : Word) (hp : p ≤ w.length) :
    (insertStrAt w p s).length = w.length + s.length := by
  simp [insertStrAt, List.length_append, List.length_take, List.length_drop]
  omega

theorem length_removeAt (w : Word) (p : Nat) (hp : p < w.length) :
    (removeAt w p).length = w.length - 1 := by
  simp [removeAt, List.length_append, List.length_take, List.length_drop]
  omega

theorem length_substStrAt (w : Word) (p : Nat) (c : Char) (hp : p < w.length) :
    (substStrAt w p [c]).length = w.length := by
  simp [substStrAt, List.length_append, List.length_take, List.length_drop]
  omega

theorem removeAt_insertStrAt (x : Word) (p : Nat) (c : Char) (hp : p ≤ x.length) :
    removeAt (insertStrAt x p [c]) p = x := by
  have hlen : (x.take p).length = p := length_take_of_le hp
  have h1 : (insertStrAt x p [c]).take p = x.take p := by
    have := take_len_append (x.take p) ([c] ++ x.drop p)
    rw [hlen] at this
    rw [insertStrAt, List.append_assoc]
    exact this
  have h2 : (insertStrAt x p [c]).drop (p + 1) = x.drop p := by
    have := drop_len_append (x.take p ++ [c]) (x.drop p)
    have hl2 : (x.take p ++ [c]).length = p + 1 := by
      simp [List.length_append, hlen]
    rw [hl2] at this
    rw [insertStrAt]
    exact this
  rw [removeAt, h1, h2, List.take_append_drop]

theorem insertStrAt_removeAt (x : Word) (p : Nat) (hp : p < x.length) :
    insertStrAt (removeAt x p) p [x.get ⟨p, hp⟩] = x := by
  have hlen : (x.take p).length = p := length_take_of_le (Nat.le_of_lt hp)
  have h1 : (removeAt x p).take p = x.take p := by
    have := take_len_append (x.take p) (x.drop (p + 1))
    rw [hlen] at this
    rw [removeAt]
    exact this
  have h2 : (removeAt x p).drop p = x.drop (p + 1) := by
    have := drop_len_append (x.take p) (x.drop (p + 1))
    rw [hlen] at this
    rw [removeAt]
    exact this
  rw [insertStrAt, h1, h2]
  exact take_get_drop x p hp

theorem substStrAt_substStrAt (x : Word) (p : Nat) (c : Char) (hp : p < x.length) :
    substStrAt (substStrAt x p [c]) p [x.get ⟨p, hp⟩] = x := by
  have hlen : (x.take p).length = p := length_take_of_le (Nat.le_of_lt hp)
  have h1 : (substStrAt x p [c]).take p = x.take p := by
    have := take_len_append (x.take p) ([c] ++ x.drop (p + 1))
    rw [hlen] at this
    rw [substStrAt, List.append_assoc]
    exact this
  have h2 : (substStrAt x p [c]).drop (p + 1) = x.drop (p + 1) := by
    have := drop_len_append (x.take p ++ [c]) (x.drop (p + 1))
    have hl2 : (x.take p ++ [c]).length = p + 1 := by
      simp [List.length_append, hlen]
    rw [hl2] at this
    rw [substStrAt]
    exact this
  rw [substStrAt, h1, h2]
  exact take_get_drop x p hp

/-! ## Membership in the generated transformation set -/

theorem mem_transformsList {ap : Bool} {x y : Word} :
    y ∈ transformsList ap x ↔
      (ap = true ∧ y ∈ possList x)
      ∨ (∃ p, p ≤ x.length ∧ ∃ c, c ∈ alphabet ∧ y = insertStrAt x p [c])
      ∨ (∃ p, p < x.length ∧ y = removeAt x p)
      ∨ (∃ p, p < x.length ∧ ∃ c, c ∈ alphabet ∧ y = substStrAt x p [c]) := by
  cases ap <;>
    simp [transformsList, List.mem_append, List.mem_flatMap, List.mem_map,
      List.mem_range, Nat.lt_succ_iff, eq_comm, and_assoc]

/-- All characters of a word belong to the lowercase alphabet. -/
def LowerWord (w : Word) : Prop := ∀ c ∈ w, c ∈ alphabet

instance (w : Word) : Decidable (LowerWord w) := by
  unfold LowerWord
  infer_instance

theorem apos_not_in_alphabet : apos ∉ alphabet := by decide

/-- On all-lowercase words, the one-edit relation generated by
`generate_transformations` is symmetric: the possessive branch never links two
lowercase words, an insertion is undone by a deletion, a deletion by an
insertion of the removed (lowercase) character, and a substitution by the
reverse substitution. -/
theorem edge_symm {ap : Bool} {x y : Word} (hx : LowerWord x) (hy : LowerWord y)
    (h : y ∈ transformsList ap x) : x ∈ transformsList ap y := by
  rcases mem_transformsList.1 h with ⟨-, hposs⟩ | ⟨p, hp, c, hc, rfl⟩ | ⟨p, hp, rfl⟩
    | ⟨p, hp, c, hc, rfl⟩
  · rw [possList] at hposs
    by_cases hsuf : possessiveSuffix.isSuffixOf x
    · exfalso
      rw [List.isSuffixOf_iff_suffix] at hsuf
      obtain ⟨t, ht⟩ := hsuf
      have : apos ∈ x := by
        rw [← ht]
        simp [possessiveSuffix]
      exact apos_not_in_alphabet (hx _ this)
    · exfalso
      rw [if_neg hsuf, List.mem_singleton] at hposs
      have : apos ∈ y := by
        rw [hposs]
        simp [possessiveSuffix]
      exact apos_not_in_alphabet (hy _ this)
  · refine mem_transformsList.2 (Or.inr (Or.inr (Or.inl ⟨p, ?_, ?_⟩)))
    · rw [length_insertStrAt x p [c] hp]
      simpa using Nat.lt_succ_of_le hp
    · exact (removeAt_insertStrAt x p c hp).symm
  · refine mem_transformsList.2 (Or.inr (Or.inl ⟨p, ?_, x.get ⟨p, hp⟩, ?_, ?_⟩))
    · rw [length_removeAt x p hp]
      omega
    · exact hx _ (List.get_mem x p hp)
    · exact (insertStrAt_removeAt x p hp).symm
  · refine mem_transformsList.2 (Or.inr (Or.inr (Or.inr ⟨p, ?_, x.get ⟨p, hp⟩, ?_, ?_⟩)))
    · rw [length_substStrAt x p c hp]
      exact hp
    · exact hx _ (List.get_mem x p hp)
    · exact (substStrAt_substStrAt x p c hp).symm

/-! ## Word-ladder chains -/

/-- `Reach T D a b n`: there is a chain of `n` one-edit steps from `a` to `b`,
every step landing on a transformation that is a member of the dictionary `D`.
This is the path notion the BFS of `WordLadderGraph.distance` explores. -/
inductive Reach (T : Word → List Word) (D : List Word) : Word → Word → Nat → Prop
  | refl (a : Word) : Reach T D a a 0
  | step {a b c : Word} {n : Nat} :
      Reach T D a b n → c ∈ T b → c ∈ D → Reach T D a c (n + 1)

theorem Reach.trans_chain {T : Word → List Word} {D : List Word} {a b c : Word} {m n : Nat}
    (h1 : Reach T D a b m) (h2 : Reach T D b c n) : Reach T D a c (m + n) := by
  induction h2 with
  | refl => exact h1
  | step h ht hD ih => exact (ih).step ht hD

theorem Reach.head {T : Word → List Word} {D : List Word} {a b c : Word} {n : Nat}
    (ht : b ∈ T a) (hD : b ∈ D) (h : Reach T D b c n) : Reach T D a c (n + 1) := by
  induction h with
  | refl => exact (Reach.refl a).step ht hD
  | step h ht2 hD2 ih => exact ih.step ht2 hD2

theorem Reach.head_decomp {T : Word → List Word} {D : List Word} {a c : Word} {n : Nat}
    (h : Reach T D a c (n + 1)) : ∃ b, b ∈ T a ∧ b ∈ D ∧ Reach T D b c n := by
  induction n generalizing c with
  | zero =>
    cases h with
    | step h0 ht hD =>
      cases h0 with
      | refl => exact ⟨c, ht, hD, Reach.refl c⟩
  | succ n ih =>
    cases h with
    | step h0 ht hD =>
      obtain ⟨b, hb1, hb2, hb3⟩ := ih h0
      exact ⟨b, hb1, hb2, hb3.step ht hD⟩

theorem Reach.end_mem {T : Word → List Word} {D : List Word} {a b : Word} {n : Nat}
    (h : Reach T D a b n) : b ∈ D ∨ b = a := by
  cases h with
  | refl => exact Or.inr rfl
  | step _ _ hD => exact Or.inl hD

/-- Chain reversal: over an all-lowercase dictionary the one-edit relation is
symmetric, so a chain from `a` to `b` reverses to a chain from `b` to `a` of
the same length (the start must itself be in the dictionary, since in the
reversed chain it is a step target). -/
theorem Reach.symm_chain {ap : Bool} {D : List Word} {a b : Word} {n : Nat}
    (hD : ∀ w ∈ D, LowerWord w) (ha : a ∈ D)
    (h : Reach (transformsList ap) D a b n) : Reach (transformsList ap) D b a n := by
  induction h with
  | refl => exact Reach.refl a
  | @step y z m hr ht hzD ih =>
    have hyD : y ∈ D := by
      rcases hr.end_mem with hyD | rfl
      · exact hyD
      · exact ha
    have hyx : y ∈ transformsList ap z := edge_symm (hD y hyD) (hD z hzD) ht
    exact Reach.head hyx hyD ih

/-! ## BFS correctness for `WordLadderGraph.distance` -/

theorem Reach.eq_of_zero {T : Word → List Word} {D : List Word} {a b : Word}
    (h : Reach T D a b 0) : a = b := by
  cases h
  rfl

theorem pushNew_seen_subset (D : List Word) (ws : List Word) (seen : Finset Word) (d : Nat) :
    seen ⊆ (pushNew D ws seen d).1 := by
  induction ws generalizing seen with
  | nil => simp [pushNew]
  | cons w ws ih =>
    by_cases h : w ∈ D ∧ w ∉ seen
    · simp only [pushNew, if_pos h]
      exact (Finset.subset_insert w seen).trans (ih (insert w seen))
    · simpa only [pushNew, if_neg h] using ih seen

theorem pushNew_push_spec (D : List Word) (ws : List Word) (seen : Finset Word) (d : Nat) :
    ∀ e ∈ (pushNew D ws seen d).2,
      e.2 = d ∧ e.1 ∈ D ∧ e.1 ∈ ws ∧ e.1 ∈ (pushNew D ws seen d).1 := by
  induction ws generalizing seen with
  | nil => simp [pushNew]
  | cons w ws ih =>
    by_cases h : w ∈ D ∧ w ∉ seen
    · simp only [pushNew, if_pos h]
      intro e he
      rcases List.mem_cons.1 he with rfl | he2
      · refine ⟨rfl, h.1, List.mem_cons_self w ws, ?_⟩
        exact pushNew_seen_subset D ws (insert w seen) d (Finset.mem_insert_self w seen)
      · obtain ⟨h1, h2, h3, h4⟩ := ih (insert w seen) e he2
        exact ⟨h1, h2, List.mem_cons_of_mem w h3, h4⟩
    · simp only [pushNew, if_neg h]
      intro e he
      obtain ⟨h1, h2, h3, h4⟩ := ih seen e he
      exact ⟨h1, h2, List.mem_cons_of_mem w h3, h4⟩

theorem pushNew_seen_cases (D : List Word) (ws : List Word) (seen : Finset Word) (d : Nat) :
    ∀ y ∈ (pushNew D ws seen d).1, y ∈ seen ∨ (y, d) ∈ (pushNew D ws seen d).2 := by
  induction ws generalizing seen with
  | nil => simp [pushNew]
  | cons w ws ih =>
    by_cases h : w ∈ D ∧ w ∉ seen
    · simp only [pushNew, if_pos h]
      intro y hy
      rcases ih (insert w seen) y hy with hy2 | hy2
      · rcases Finset.mem_insert.1 hy2 with rfl | hy3
        · exact Or.inr (List.mem_cons_self _ _)
        · exact Or.inl hy3
      · exact Or.inr (List.mem_cons_of_mem _ hy2)
    · simpa only [pushNew, if_neg h] using ih seen

theorem pushNew_covers (D : List Word) (ws : List Word) (seen : Finset Word) (d : Nat) :
    ∀ w ∈ ws, w ∈ D → w ∈ (pushNew D ws seen d).1 := by
  induction ws generalizing seen with
  | nil => simp
  | cons w ws ih =>
    intro w2 hw2 hw2D
    by_cases h : w ∈ D ∧ w ∉ seen
    · simp only [pushNew, if_pos h]
      rcases List.mem_cons.1 hw2 with rfl | hw3
      · exact pushNew_seen_subset D ws (insert w2 seen) d (Finset.mem_insert_self w2 seen)
      · exact ih (insert w seen) w2 hw3 hw2D
    · simp only [pushNew, if_neg h]
      rcases List.mem_cons.1 hw2 with rfl | hw3
      · have : w2 ∈ seen := by
          rcases not_and_or.1 h with h2 | h2
          · exact absurd hw2D h2
          · exact not_not.1 h2
        exact pushNew_seen_subset D ws seen d this
      · exact ih seen w2 hw3 hw2D

/-- The loop invariant of the BFS in `WordLadderGraph.distance`: queue entries
carry true chains from the start, queued words are seen dictionary words, the
target is never marked seen (its discovery returns instead), every seen word is
either still queued or fully expanded (and expanding it did not find the
target), queue distances are non-decreasing with spread at most one, and every
reachable word either is seen or is reachable from some queue entry within the
chain's budget. -/
structure BfsInv (D : List Word) (ap : Bool) (w1 w2 : Word)
    (q : List (Word × Nat)) (seen : Finset Word) : Prop where
  sound : ∀ e ∈ q, Reach (transformsList ap) D w1 e.1 e.2
  inSeen : ∀ e ∈ q, e.1 ∈ seen
  inD : ∀ e ∈ q, e.1 ∈ D
  target : w2 ∉ seen
  closed : ∀ y ∈ seen, (∃ dy, (y, dy) ∈ q) ∨
      (w2 ∉ transformsList ap y ∧ ∀ z ∈ transformsList ap y, z ∈ D → z ∈ seen)
  mono : List.Pairwise (fun e f => e.2 ≤ f.2) q
  span : ∀ e ∈ q, ∀ f ∈ q, e.2 ≤ f.2 + 1
  complete : ∀ y k, Reach (transformsList ap) D w1 y k →
      y ∈ seen ∨ ∃ e ∈ q, ∃ m, Reach (transformsList ap) D e.1 y m ∧ e.2 + m ≤ k

/-- Chains whose start is already seen either stay inside the seen set or pass
through a word still in the queue, within the chain's length. -/
theorem closed_chain_witness {D : List Word} {ap : Bool} {w2 : Word}
    {q : List (Word × Nat)} {seen : Finset Word}
    (hclosed : ∀ y ∈ seen, (∃ dy, (y, dy) ∈ q) ∨
      (w2 ∉ transformsList ap y ∧ ∀ z ∈ transformsList ap y, z ∈ D → z ∈ seen)) :
    ∀ j z y, z ∈ seen → Reach (transformsList ap) D z y j →
      y ∈ seen ∨ ∃ e ∈ q, ∃ m, 1 ≤ m ∧ m ≤ j ∧ Reach (transformsList ap) D e.1 y m := by
  intro j
  induction j with
  | zero =>
    intro z y hz h
    left
    rw [← h.eq_of_zero]
    exact hz
  | succ j ih =>
    intro z y hz h
    rcases hclosed z hz with ⟨dz, hdz⟩ | ⟨-, hcl⟩
    · exact Or.inr ⟨(z, dz), hdz, j + 1, by omega, le_refl _, h⟩
    · obtain ⟨z2, hz2T, hz2D, hz2r⟩ := h.head_decomp
      rcases ih z2 y (hcl z2 hz2T hz2D) hz2r with hy | ⟨e, he, m, hm1, hm2, hr⟩
      · exact Or.inl hy
      · exact Or.inr ⟨e, he, m, hm1, by omega, hr⟩

/-- After expanding the dequeued `(cur, d)`, every chain out of `cur` either
ends inside the new seen set or passes through an entry of the new queue within
its budget. -/
theorem expand_chain_witness {D : List Word} {ap : Bool} {w1 w2 : Word} {cur : Word} {d : Nat}
    {rest : List (Word × Nat)} {seen : Finset Word}
    (inv : BfsInv D ap w1 w2 ((cur, d) :: rest) seen) :
    ∀ m y k, Reach (transformsList ap) D cur y m → d + m ≤ k →
      y ∈ (pushNew D (transformsList ap cur) seen (d + 1)).1 ∨
      ∃ e ∈ rest ++ (pushNew D (transformsList ap cur) seen (d + 1)).2, ∃ m2,
        Reach (transformsList ap) D e.1 y m2 ∧ e.2 + m2 ≤ k := by
  intro m
  induction m using Nat.strong_induction_on with
  | _ m ihm =>
    intro y k hr hbud
    match m, hr, hbud with
    | 0, hr, hbud =>
      left
      rw [← hr.eq_of_zero]
      exact pushNew_seen_subset D (transformsList ap cur) seen (d + 1)
        (inv.inSeen (cur, d) (List.mem_cons_self _ _))
    | m + 1, hr, hbud =>
      obtain ⟨z, hzT, hzD, hzr⟩ := hr.head_decomp
      have hzseen2 : z ∈ (pushNew D (transformsList ap cur) seen (d + 1)).1 :=
        pushNew_covers D (transformsList ap cur) seen (d + 1) z hzT hzD
      rcases pushNew_seen_cases D (transformsList ap cur) seen (d + 1) z hzseen2
        with hzold | hzpush
      · rcases closed_chain_witness inv.closed m z y hzold hzr
          with hy | ⟨e, he, m2, hm1, hm2, hrw⟩
        · exact Or.inl (pushNew_seen_subset D (transformsList ap cur) seen (d + 1) hy)
        · rcases List.mem_cons.1 he with rfl | herest
          · exact ihm m2 (by omega) y k hrw (by omega)
          · refine Or.inr ⟨e, List.mem_append_left _ herest, m2, hrw, ?_⟩
            have hspan : e.2 ≤ d + 1 :=
              inv.span e (List.mem_cons_of_mem _ herest) (cur, d) (List.mem_cons_self _ _)
            omega
      · exact Or.inr ⟨(z, d + 1), List.mem_append_right _ hzpush, m, hzr, by omega⟩

/-- One BFS dequeue-and-expand step preserves the loop invariant. -/
theorem BfsInv.preserve {D : List Word} {ap : Bool} {w1 w2 : Word} {cur : Word} {d : Nat}
    {rest : List (Word × Nat)} {seen : Finset Word}
    (inv : BfsInv D ap w1 w2 ((cur, d) :: rest) seen)
    (ht : w2 ∉ transformsList ap cur) :
    BfsInv D ap w1 w2 (rest ++ (pushNew D (transformsList ap cur) seen (d + 1)).2)
      (pushNew D (transformsList ap cur) seen (d + 1)).1 := by
  have hsub := pushNew_seen_subset D (transformsList ap cur) seen (d + 1)
  have hspec := pushNew_push_spec D (transformsList ap cur) seen (d + 1)
  have hcases := pushNew_seen_cases D (transformsList ap cur) seen (d + 1)
  have hcov := pushNew_covers D (transformsList ap cur) seen (d + 1)
  have hcurR : Reach (transformsList ap) D w1 cur d :=
    inv.sound (cur, d) (List.mem_cons_self _ _)
  refine ⟨?_, ?_, ?_, ?_, ?_, ?_, ?_, ?_⟩
  · -- sound
    intro e he
    rcases List.mem_append.1 he with he2 | he2
    · exact inv.sound e (List.mem_cons_of_mem _ he2)
    · obtain ⟨h1, h2, h3, -⟩ := hspec e he2
      rw [h1]
      exact hcurR.step h3 h2
  · -- inSeen
    intro e he
    rcases List.mem_append.1 he with he2 | he2
    · exact hsub (inv.inSeen e (List.mem_cons_of_mem _ he2))
    · exact (hspec e he2).2.2.2
  · -- inD
    intro e he
    rcases List.mem_append.1 he with he2 | he2
    · exact inv.inD e (List.mem_cons_of_mem _ he2)
    · exact (hspec e he2).2.1
  · -- target
    intro hmem
    rcases hcases w2 hmem with h2 | h2
    · exact inv.target h2
    · exact ht (hspec (w2, d + 1) h2).2.2.1
  · -- closed
    intro y hy
    rcases hcases y hy with hyold | hypush
    · rcases inv.closed y hyold with ⟨dy, hdy⟩ | ⟨hw2y, hcl⟩
      · rcases List.mem_cons.1 hdy with heq | herest
        · have hycur : y = cur := congrArg Prod.fst heq
          subst hycur
          exact Or.inr ⟨ht, fun z hz hzD => hcov z hz hzD⟩
        · exact Or.inl ⟨dy, List.mem_append_left _ herest⟩
      · exact Or.inr ⟨hw2y, fun z hz hzD => hsub (hcl z hz hzD)⟩
    · exact Or.inl ⟨d + 1, List.mem_append_right _ hypush⟩
  · -- mono
    rw [List.pairwise_append]
    refine ⟨inv.mono.of_cons, ?_, ?_⟩
    · refine List.pairwise_of_forall_mem_list ?_
      intro e he f hf
      rw [(hspec e he).1, (hspec f hf).1]
    · intro e he f hf
      have h1 : e.2 ≤ d + 1 :=
        inv.span e (List.mem_cons_of_mem _ he) (cur, d) (List.mem_cons_self _ _)
      rw [(hspec f hf).1]
      exact h1
  · -- span
    intro e he f hf
    rcases List.mem_append.1 he with he2 | he2 <;> rcases List.mem_append.1 hf with hf2 | hf2
    · exact inv.span e (List.mem_cons_of_mem _ he2) f (List.mem_cons_of_mem _ hf2)
    · have h1 : e.2 ≤ d + 1 :=
        inv.span e (List.mem_cons_of_mem _ he2) (cur, d) (List.mem_cons_self _ _)
      rw [(hspec f hf2).1]
      omega
    · have h1 : d ≤ f.2 := by
        have := inv.mono
        rw [List.pairwise_cons] at this
        exact this.1 f hf2
      rw [(hspec e he2).1]
      omega
    · rw [(hspec e he2).1, (hspec f hf2).1]
      omega
  · -- complete
    intro y k hk
    rcases inv.complete y k hk with hy | ⟨e, he, m, hrm, hsum⟩
    · exact Or.inl (hsub hy)
    · rcases List.mem_cons.1 he with rfl | herest
      · exact expand_chain_witness inv m y k hrm (by omega)
      · exact Or.inr ⟨e, List.mem_append_left _ herest, m, hrm, hsum⟩

/-- The invariant holds at the initial BFS state of `distance`. -/
theorem BfsInv.initial (D : List Word) (ap : Bool) (w1 w2 : Word)
    (hw1D : w1 ∈ D) (hne : w1 ≠ w2) : BfsInv D ap w1 w2 [(w1, 0)] {w1} := by
  refine ⟨?_, ?_, ?_, ?_, ?_, ?_, ?_, ?_⟩
  · intro e he
    rw [List.mem_singleton] at he
    rw [he]
    exact Reach.refl w1
  · intro e he
    rw [List.mem_singleton] at he
    rw [he]
    exact Finset.mem_singleton_self w1
  · intro e he
    rw [List.mem_singleton] at he
    rw [he]
    exact hw1D
  · intro h
    exact hne (Finset.mem_singleton.1 h).symm
  · intro y hy
    rw [Finset.mem_singleton] at hy
    exact Or.inl ⟨0, by rw [hy]; exact List.mem_singleton_self _⟩
  · simp
  · intro e he f hf
    rw [List.mem_singleton] at he hf
    rw [he, hf]
    omega
  · intro y k hk
    exact Or.inr ⟨(w1, 0), List.mem_singleton_self _, k, hk, by omega⟩

/-- Full functional correctness of the BFS loop: starting from any state
satisfying the invariant (with enough fuel), the loop returns `inf` exactly
when the target is unreachable, and `fin r` exactly for the minimal chain
length `r`. -/
theorem bfsLoop_spec (D : List Word) (ap : Bool) (w1 w2 : Word) (hw2D : w2 ∈ D) :
    ∀ fuel q seen, (D.toFinset \ seen).card + q.length < fuel →
      BfsInv D ap w1 w2 q seen →
      ((bfsLoop D ap w2 fuel q seen = .inf →
          ∀ k, ¬ Reach (transformsList ap) D w1 w2 k)
        ∧ (∀ r, bfsLoop D ap w2 fuel q seen = .fin r →
            Reach (transformsList ap) D w1 w2 r ∧
              ∀ k, Reach (transformsList ap) D w1 w2 k → r ≤ k)) := by
  intro fuel
  induction fuel with
  | zero => intro q seen hm; omega
  | succ fuel ih =>
    intro q seen hm inv
    match q with
    | [] =>
      constructor
      · intro _ k hk
        rcases inv.complete w2 k hk with hy | ⟨e, he, -⟩
        · exact inv.target hy
        · exact absurd he (List.not_mem_nil e)
      · intro r hr
        exact absurd hr (by simp [bfsLoop])
    | (cur, d) :: rest =>
      by_cases ht : w2 ∈ transformsList ap cur
      · constructor
        · intro hr
          rw [show bfsLoop D ap w2 (fuel + 1) ((cur, d) :: rest) seen = .fin (d + 1) by
            simp [bfsLoop, if_pos ht]] at hr
          exact absurd hr (by simp)
        · intro r hr
          rw [show bfsLoop D ap w2 (fuel + 1) ((cur, d) :: rest) seen = .fin (d + 1) by
            simp [bfsLoop, if_pos ht]] at hr
          have hrd : r = d + 1 := by
            cases hr
            rfl
          subst hrd
          constructor
          · exact (inv.sound (cur, d) (List.mem_cons_self _ _)).step ht hw2D
          · intro k hk
            rcases inv.complete w2 k hk with hy | ⟨e, he, m, hrm, hsum⟩
            · exact absurd hy inv.target
            · match m, hrm, hsum with
              | 0, hrm, hsum =>
                exact absurd (hrm.eq_of_zero ▸ inv.inSeen e he) inv.target
              | m + 1, hrm, hsum =>
                have hde : d ≤ e.2 := by
                  rcases List.mem_cons.1 he with rfl | herest
                  · exact le_refl _
                  · have := inv.mono
                    rw [List.pairwise_cons] at this
                    exact this.1 e herest
                omega
      · have hstep : bfsLoop D ap w2 (fuel + 1) ((cur, d) :: rest) seen =
            bfsLoop D ap w2 fuel
              (rest ++ (pushNew D (transformsList ap cur) seen (d + 1)).2)
              (pushNew D (transformsList ap cur) seen (d + 1)).1 := by
          simp [bfsLoop, if_neg ht]
        have hmeas := pushNew_measure D (transformsList ap cur) seen (d + 1)
        have hm2 : (D.toFinset \ (pushNew D (transformsList ap cur) seen (d + 1)).1).card
            + (rest ++ (pushNew D (transformsList ap cur) seen (d + 1)).2).length < fuel := by
          rw [List.length_append]
          simp only [List.length_cons] at hm
          omega
        rw [hstep]
        exact ih _ _ hm2 (inv.preserve ht)

/-! ## The order-normalized cache key -/

theorem wordLt_asymm : ∀ (a b : Word), wordLt a b = true → wordLt b a = false
  | [], [] => by simp [wordLt]
  | [], _ :: _ => by simp [wordLt]
  | _ :: _, [] => by simp [wordLt]
  | x :: xs, y :: ys => by
    rcases lt_trichotomy x y with h | h | h
    · intro _
      rw [wordLt, if_neg (asymm h), if_pos h]
    · subst h
      rw [wordLt, if_neg (lt_irrefl x), if_neg (lt_irrefl x),
        wordLt, if_neg (lt_irrefl x), if_neg (lt_irrefl x)]
      exact wordLt_asymm xs ys
    · intro hc
      rw [wordLt, if_neg (asymm h), if_pos h] at hc
      cases hc

theorem wordLt_total : ∀ (a b : Word), wordLt a b = false → wordLt b a = false → a = b
  | [], [] => fun _ _ => rfl
  | [], _ :: _ => by simp [wordLt]
  | _ :: _, [] => by simp [wordLt]
  | x :: xs, y :: ys => by
    intro h1 h2
    rcases lt_trichotomy x y with h | h | h
    · rw [wordLt, if_pos h] at h1
      cases h1
    · subst h
      rw [wordLt, if_neg (lt_irrefl x), if_neg (lt_irrefl x)] at h1 h2
      rw [wordLt_total xs ys h1 h2]
    · rw [wordLt, if_pos h] at h2
      cases h2

theorem wordLt_irrefl (a : Word) : wordLt a a = false := by
  cases h : wordLt a a
  · rfl
  · have h2 := wordLt_asymm a a h
    rw [h] at h2
    exact h2

theorem sortPair_comm (a b : Word) : sortPair a b = sortPair b a := by
  unfold sortPair
  cases hab : wordLt b a <;> cases hba : wordLt a b
  · rw [wordLt_total a b hba hab]
  · simp
  · simp
  · have h2 := wordLt_asymm a b hba
    rw [hab] at h2
    cases h2

theorem sortPair_self (a : Word) : sortPair a a = (a, a) := by
  unfold sortPair
  split <;> rfl

theorem sortPair_cases (a b : Word) : sortPair a b = (a, b) ∨ sortPair a b = (b, a) := by
  unfold sortPair
  by_cases h : wordLt b a = true
  · exact Or.inr (if_pos h)
  · exact Or.inl (if_neg h)

theorem cacheLookup_some {c : Cache} {k : Word × Word} {v : Dist}
    (h : cacheLookup c k = some v) : ∃ e ∈ c, e.1 = k ∧ e.2 = v := by
  induction c with
  | nil => cases h
  | cons e0 rest ih =>
    rw [cacheLookup] at h
    split at h
    · next heq =>
      cases h
      exact ⟨e0, List.mem_cons_self _ _, heq, rfl⟩
    · obtain ⟨e, he, h1, h2⟩ := ih h
      exact ⟨e, List.mem_cons_of_mem _ he, h1, h2⟩

/-! ## The distance specification -/

/-- The mathematical specification of what `distance(x, y)` computes:
`fin 0` on equal words, `inf` when either word is missing from the dictionary,
and otherwise the least chain length (or `inf` when no chain exists). -/
def IsDistSpec (D : List Word) (ap : Bool) (x y : Word) (v : Dist) : Prop :=
  if x = y then v = .fin 0
  else if x ∉ D ∨ y ∉ D then v = .inf
  else
    match v with
    | .fin r => Reach (transformsList ap) D x y r ∧
        ∀ k, Reach (transformsList ap) D x y k → r ≤ k
    | .inf => ∀ k, ¬ Reach (transformsList ap) D x y k

theorem IsDistSpec.unique {D : List Word} {ap : Bool} {x y : Word} {v v2 : Dist}
    (h1 : IsDistSpec D ap x y v) (h2 : IsDistSpec D ap x y v2) : v = v2 := by
  unfold IsDistSpec at h1 h2
  by_cases hxy : x = y
  · rw [if_pos hxy] at h1 h2
    rw [h1, h2]
  · by_cases hmem : x ∉ D ∨ y ∉ D
    · rw [if_neg hxy, if_pos hmem] at h1 h2
      rw [h1, h2]
    · rw [if_neg hxy, if_neg hmem] at h1 h2
      match v, v2, h1, h2 with
      | .fin r, .fin r2, ⟨ha, hb⟩, ⟨hc, hd⟩ =>
        have : r = r2 := le_antisymm (hb r2 hc) (hd r ha)
        rw [this]
      | .fin r, .inf, ⟨ha, _⟩, hc => exact absurd ha (hc r)
      | .inf, .fin r, hc, ⟨ha, _⟩ => exact absurd ha (hc r)
      | .inf, .inf, _, _ => rfl

/-- Over an all-lowercase dictionary the distance specification is symmetric
in its two word arguments (by chain reversal). -/
theorem IsDistSpec.symm {D : List Word} {ap : Bool} {x y : Word} {v : Dist}
    (hD : ∀ w ∈ D, LowerWord w) (h : IsDistSpec D ap x y v) : IsDistSpec D ap y x v := by
  unfold IsDistSpec at h ⊢
  by_cases hxy : x = y
  · subst hxy
    rwa [if_pos rfl] at h ⊢
  · rw [if_neg hxy] at h
    rw [if_neg (Ne.symm hxy)]
    by_cases hmem : x ∉ D ∨ y ∉ D
    · rw [if_pos hmem] at h
      rw [if_pos hmem.symm]
      exact h
    · rw [if_neg hmem] at h
      rw [if_neg (fun h2 => hmem h2.symm)]
      push_neg at hmem
      match v, h with
      | .fin r, ⟨ha, hb⟩ =>
        exact ⟨ha.symm_chain hD hmem.1, fun k hk => hb k (hk.symm_chain hD hmem.2)⟩
      | .inf, ha =>
        exact fun k hk => ha k (hk.symm_chain hD hmem.2)

/-- The cache invariant needed only to place C4 and C9: every reachable cache
state holds keys of two distinct dictionary words (the equality and membership
short-circuits never write the cache). -/
def CacheOK (D : List Word) (c : Cache) : Prop :=
  ∀ e ∈ c, e.1.1 ≠ e.1.2 ∧ e.1.1 ∈ D ∧ e.1.2 ∈ D

theorem CacheOK.lookup_diag {D : List Word} {c : Cache} (hc : CacheOK D c) (w : Word) :
    cacheLookup c (w, w) = none := by
  cases h : cacheLookup c (w, w)
  · rfl
  · obtain ⟨e, he, h1, -⟩ := cacheLookup_some h
    exact absurd (by rw [h1]) (hc e he).1

theorem CacheOK.lookup_of_absent {D : List Word} {c : Cache} (hc : CacheOK D c)
    {a b : Word} (hmem : a ∉ D ∨ b ∉ D) : cacheLookup c (sortPair a b) = none := by
  cases h : cacheLookup c (sortPair a b)
  · rfl
  · obtain ⟨e, he, h1, -⟩ := cacheLookup_some h
    obtain ⟨-, h2, h3⟩ := hc e he
    rcases sortPair_cases a b with hk | hk <;> rw [hk] at h1 <;> rw [h1] at h2 h3
    · rcases hmem with hm | hm
      · exact (hm h2).elim
      · exact (hm h3).elim
    · rcases hmem with hm | hm
      · exact (hm h3).elim
      · exact (hm h2).elim

theorem distance_preserves_cacheOK {D : List Word} {ap : Bool} {w1 w2 : Word} {c : Cache}
    (hc : CacheOK D c) : CacheOK D (distance D ap w1 w2 c).2 := by
  unfold distance
  cases hlook : cacheLookup c (sortPair w1 w2) with
  | some v =>
    simp only [hlook]
    exact hc
  | none =>
    simp only [hlook]
    by_cases hxy : w1 = w2
    · rw [if_pos hxy]
      exact hc
    · rw [if_neg hxy]
      by_cases hmem : w1 ∉ D ∨ w2 ∉ D
      · rw [if_pos hmem]
        exact hc
      · rw [if_neg hmem]
        intro e he
        rcases List.mem_cons.1 he with rfl | he2
        · push_neg at hmem
          rcases sortPair_cases w1 w2 with hk | hk <;> rw [hk]
          · exact ⟨hxy, hmem.1, hmem.2⟩
          · exact ⟨Ne.symm hxy, hmem.2, hmem.1⟩
        · exact hc e he2

/-- The semantic cache invariant: every stored value is the correct distance of
its key pair in both argument orders. -/
def CacheGood (D : List Word) (ap : Bool) (c : Cache) : Prop :=
  ∀ e ∈ c, IsDistSpec D ap e.1.1 e.1.2 e.2 ∧ IsDistSpec D ap e.1.2 e.1.1 e.2

theorem cacheGood_nil (D : List Word) (ap : Bool) : CacheGood D ap [] :=
  fun e he => absurd he (List.not_mem_nil e)

/-- The BFS run by `distance` on a cache miss with two distinct dictionary
words computes the distance specification. -/
theorem distance_bfs_spec {D : List Word} {ap : Bool} {w1 w2 : Word}
    (h1 : w1 ∈ D) (h2 : w2 ∈ D) (hne : w1 ≠ w2) :
    IsDistSpec D ap w1 w2 (bfsLoop D ap w2 (D.length + 2) [(w1, 0)] {w1}) := by
  have hmeas : (D.toFinset \ {w1}).card + ([((w1 : Word), (0 : Nat))]).length < D.length + 2 := by
    have hs : (D.toFinset \ {w1}).card ≤ D.toFinset.card :=
      Finset.card_le_card Finset.sdiff_subset
    have hl : D.toFinset.card ≤ D.length := D.toFinset_card_le
    simp only [List.length_singleton]
    omega
  have hspec := bfsLoop_spec D ap w1 w2 h2 (D.length + 2) [(w1, 0)] {w1} hmeas
    (BfsInv.initial D ap w1 w2 h1 hne)
  unfold IsDistSpec
  rw [if_neg hne, if_neg (by push_neg; exact ⟨h1, h2⟩)]
  cases hr : bfsLoop D ap w2 (D.length + 2) [(w1, 0)] {w1} with
  | fin r => exact hspec.2 r hr
  | inf => exact fun k => hspec.1 hr k

/-- Functional correctness of `distance` with its cache: starting from a
semantically correct cache, the returned value satisfies the distance
specification and the updated cache is again semantically correct.  The
all-lowercase hypothesis is needed because the cache key identifies the two
argument orders. -/
theorem distance_spec {D : List Word} {ap : Bool} {w1 w2 : Word} {c : Cache}
    (hD : ∀ w ∈ D, LowerWord w) (hc : CacheGood D ap c) :
    IsDistSpec D ap w1 w2 (distance D ap w1 w2 c).1 ∧
      CacheGood D ap (distance D ap w1 w2 c).2 := by
  unfold distance
  cases hlook : cacheLookup c (sortPair w1 w2) with
  | some v =>
    simp only [hlook]
    refine ⟨?_, hc⟩
    obtain ⟨e, he, h1, h2⟩ := cacheLookup_some hlook
    rcases sortPair_cases w1 w2 with hk | hk <;> rw [hk] at h1
    · have hspec := (hc e he).1
      rw [h1] at hspec
      rw [← h2]
      exact hspec
    · have hspec := (hc e he).2
      rw [h1] at hspec
      rw [← h2]
      exact hspec
  | none =>
    simp only [hlook]
    by_cases hxy : w1 = w2
    · rw [if_pos hxy]
      subst hxy
      refine ⟨?_, hc⟩
      unfold IsDistSpec
      rw [if_pos rfl]
    · rw [if_neg hxy]
      by_cases hmem : w1 ∉ D ∨ w2 ∉ D
      · rw [if_pos hmem]
        refine ⟨?_, hc⟩
        unfold IsDistSpec
        rw [if_neg hxy, if_pos hmem]
      · rw [if_neg hmem]
        push_neg at hmem
        have hbfs := @distance_bfs_spec D ap w1 w2 hmem.1 hmem.2 hxy
        refine ⟨hbfs, ?_⟩
        intro e he
        rcases List.mem_cons.1 he with rfl | he2
        · rcases sortPair_cases w1 w2 with hk | hk <;> rw [hk]
          · exact ⟨hbfs, hbfs.symm hD⟩
          · exact ⟨hbfs.symm hD, hbfs⟩
        · exact hc e he2

/-- Over an all-lowercase dictionary, `distance` is symmetric for every cache
state: the two argument orders share the order-normalized cache key, and on a
miss the two BFS runs compute minimal chain lengths that agree by chain
reversal. -/
theorem distance_symm_of_lower {D : List Word} {ap : Bool} (hD : ∀ w ∈ D, LowerWord w)
    (a b : Word) (c : Cache) : (distance D ap a b c).1 = (distance D ap b a c).1 := by
  unfold distance
  rw [sortPair_comm b a]
  cases hlook : cacheLookup c (sortPair a b) with
  | some v => simp only [hlook]
  | none =>
    simp only [hlook]
    by_cases hab : a = b
    · rw [if_pos hab, if_pos hab.symm]
    · rw [if_neg hab, if_neg (Ne.symm hab)]
      by_cases hmem : a ∉ D ∨ b ∉ D
      · rw [if_pos hmem, if_pos hmem.symm]
      · rw [if_neg hmem, if_neg (fun h => hmem h.symm)]
        push_neg at hmem
        have s1 := @distance_bfs_spec D ap a b hmem.1 hmem.2 hab
        have s2 := @distance_bfs_spec D ap b a hmem.2 hmem.1 (Ne.symm hab)
        exact IsDistSpec.unique s1 (s2.symm hD)

theorem cacheOK_nil (D : List Word) : CacheOK D [] :=
  fun e he => absurd he (List.not_mem_nil e)

theorem mem_finderTransformsList {adds : List Word} {x y : Word} :
    y ∈ finderTransformsList adds x ↔
      (∃ p, p ≤ x.length ∧ ∃ s, s ∈ adds ∧ y = insertStrAt x p s)
      ∨ (∃ p, p < x.length ∧ y = removeAt x p)
      ∨ (∃ p, p < x.length ∧ ∃ s, s ∈ adds ∧ y = substStrAt x p s) := by
  simp [finderTransformsList, List.mem_append, List.mem_flatMap, List.mem_map,
    List.mem_range, Nat.lt_succ_iff, eq_comm, and_assoc]

/-! ## Concrete words used in counterexamples and witnesses -/

def wordCat : Word := ['c', 'a', 't']
def wordCut : Word := ['c', 'u', 't']
def wordBat : Word := ['b', 'a', 't']
def wordZzz : Word := ['z', 'z', 'z']
def wordCats : Word := ['c', 'a', 't', 's']
/-- The possessive form: the five characters of the Python string for cat-apostrophe-s. -/
def wordCatPoss : Word := ['c', 'a', 't', apos, 's']
/-- A dictionary containing a possessive form together with its apostrophe-free
variant: deleting the apostrophe is a one-edit step, but no edit reinserts it. -/
def dictPoss : List Word := [wordCats, wordCatPoss]
def dictLower : List Word := [wordCat, wordCut]

/-! ## Claim theorems: C3, C4, C9, C10 -/

set_option maxRecDepth 80000

/-- C10 counterexample: the one-character word consisting of the apostrophe
has length 1, yet neither `WordTransformer.generate_transformations` nor
`WordLadderFinder._generate_transformations` (with the default additions)
produces it from itself — every substitution uses an alphabet letter (or the
two-character possessive string), so no identity substitution exists for it. -/
theorem C10_counterexample :
    (1 : Nat) ≤ ([apos] : Word).length ∧
    [apos] ∉ generate_transformations true [apos] ∧
    [apos] ∉ finder_generate_transformations defaultAdditions [apos] := by
  decide

/-- C10 (amended): every word with at least one character from the lowercase
alphabet is a member of its own transformation set, in both
`WordTransformer.generate_transformations` (for either possessive setting) and
`WordLadderFinder._generate_transformations` with the default additions,
because substituting that character by itself reproduces the word. -/
theorem C10_self_mem (ap : Bool) (w : Word) (p : Nat) (hp : p < w.length)
    (hc : w.get ⟨p, hp⟩ ∈ alphabet) :
    w ∈ generate_transformations ap w ∧
      w ∈ finder_generate_transformations defaultAdditions w := by
  have hid : substStrAt w p [w.get ⟨p, hp⟩] = w := take_get_drop w p hp
  constructor
  · rw [generate_transformations, List.mem_toFinset]
    exact mem_transformsList.2 (Or.inr (Or.inr (Or.inr ⟨p, hp, w.get ⟨p, hp⟩, hc, hid.symm⟩)))
  · rw [finder_generate_transformations, List.mem_toFinset]
    have hadds : [w.get ⟨p, hp⟩] ∈ defaultAdditions := by
      rw [defaultAdditions, List.mem_append]
      exact Or.inl (List.mem_map.2 ⟨w.get ⟨p, hp⟩, hc, rfl⟩)
    exact mem_finderTransformsList.2
      (Or.inr (Or.inr ⟨p, hp, [w.get ⟨p, hp⟩], hadds, hid.symm⟩))

theorem C10_self_mem_witness :
    ∃ hp : 0 < wordCat.length,
      wordCat.get ⟨0, hp⟩ ∈ alphabet ∧
      wordCat ∈ generate_transformations true wordCat ∧
      wordCat ∈ finder_generate_transformations defaultAdditions wordCat := by
  refine ⟨by decide, by decide, ?_⟩
  exact C10_self_mem true wordCat 0 (by decide) (by decide)

/-- C9: `distance(w, w)` returns `0` with the cache untouched (so no BFS is
run and nothing is written), for every word `w` — in particular also when `w`
is not in the dictionary, since the equality check at line 96 precedes the
membership check at line 98.  The hypothesis restricts to cache states
reachable by the class (keys are pairs of distinct dictionary words), which
`cacheOK_nil` and `distance_preserves_cacheOK` show is an invariant. -/
theorem C9_distance_self (D : List Word) (ap : Bool) (w : Word) (c : Cache)
    (hc : CacheOK D c) : distance D ap w w c = (Dist.fin 0, c) := by
  unfold distance
  rw [sortPair_self]
  simp only [hc.lookup_diag w, if_true, eq_self_iff_true]

theorem C9_distance_self_witness :
    CacheOK [wordCat] ([] : Cache) ∧
      distance [wordCat] true wordZzz wordZzz [] = (Dist.fin 0, []) :=
  ⟨cacheOK_nil [wordCat], C9_distance_self [wordCat] true wordZzz [] (cacheOK_nil [wordCat])⟩

/-- C4: on distinct words with either one absent from the dictionary,
`distance` returns `inf` with the cache untouched (no BFS, no cache write),
from any reachable cache state. -/
theorem C4_distance_absent (D : List Word) (ap : Bool) (w1 w2 : Word) (c : Cache)
    (hc : CacheOK D c) (hne : w1 ≠ w2) (hmem : w1 ∉ D ∨ w2 ∉ D) :
    distance D ap w1 w2 c = (Dist.inf, c) := by
  unfold distance
  simp only [hc.lookup_of_absent hmem]
  rw [if_neg hne, if_pos hmem]

theorem C4_distance_absent_witness :
    CacheOK [wordCat] ([] : Cache) ∧ wordZzz ≠ wordCat ∧ (wordZzz ∉ [wordCat] ∨ wordCat ∉ [wordCat]) ∧
      distance [wordCat] true wordZzz wordCat [] = (Dist.inf, []) :=
  ⟨cacheOK_nil [wordCat], by decide, Or.inl (by decide),
    C4_distance_absent [wordCat] true wordZzz wordCat [] (cacheOK_nil [wordCat])
      (by decide) (Or.inl (by decide))⟩

/-- C3 counterexample: with the dictionary consisting of the Python strings
for cats and cat-apostrophe-s and fresh (empty) caches, the two query orders
disagree: deleting the apostrophe is a generated edit, so the distance from
the possessive form to the plain form is 1, while no edit of the plain form
reinserts an apostrophe (insertions and substitutions only use lowercase
letters and the possessive branch appends to the end), so the opposite order
is unreachable.  This refutes symmetry as claimed. -/
theorem C3_counterexample :
    (distance dictPoss true wordCatPoss wordCats []).1 = Dist.fin 1 ∧
    (distance dictPoss true wordCats wordCatPoss []).1 = Dist.inf := by
  constructor
  · decide
  · decide

/-- C3 (amended): over a dictionary whose words consist only of lowercase
alphabet letters, `distance(a, b) = distance(b, a)` for all words `a`, `b` and
every cache state (hence regardless of the order in which queries are made):
the cache key is the order-normalized pair, and on a miss the two BFS runs
compute minimal chain lengths that agree because the one-edit relation is
symmetric on lowercase words. -/
theorem C3_distance_symm (D : List Word) (ap : Bool) (hD : ∀ w ∈ D, LowerWord w)
    (a b : Word) (c : Cache) : (distance D ap a b c).1 = (distance D ap b a c).1 :=
  distance_symm_of_lower hD a b c

theorem C3_distance_symm_witness :
    (∀ w ∈ dictLower, LowerWord w) ∧
      (distance dictLower true wordCat wordCut []).1 =
        (distance dictLower true wordCut wordCat []).1 :=
  ⟨by decide, C3_distance_symm dictLower true (by decide) wordCat wordCut []⟩

/-! ## `WordLadderVisualizer._find_components` (lines 164-191) -/

/-- State returned by one `for other in self.graph.words` scan inside
`find_component` (lines 176-180). -/
structure ScanResult where
  vis : Finset Word
  comp : Finset Word
  qadd : List Word
  cache : Cache

/-- The `for other in self.graph.words` loop body of `find_component`
(lines 176-180): for each word not yet visited, query `distance` (threading
the cache; the membership test short-circuits before `distance` is called) and
on a finite result add the word to the visited set, the component and the
queue. -/
def scanOthers (D : List Word) (ap : Bool) (cur : Word) :
    List Word → Finset Word → Finset Word → List Word → Cache → ScanResult
  | [], vis, comp, qadd, c => ⟨vis, comp, qadd, c⟩
  | o :: os, vis, comp, qadd, c =>
      if o ∉ vis then
        let r := distance D ap cur o c
        if r.1 ≠ Dist.inf then
          scanOthers D ap cur os (insert o vis) (insert o comp) (qadd ++ [o]) r.2
        else
          scanOthers D ap cur os vis comp qadd r.2
      else
        scanOthers D ap cur os vis comp qadd c

/-- Result of `find_component`: the component, together with the visited set
and cache it mutated. -/
structure FCResult where
  comp : Finset Word
  vis : Finset Word
  cache : Cache

/-- The `while queue:` loop of `find_component` (lines 174-180), on fuel kept
strictly above `(D.toFinset \ vis).card + queue.length`, which every iteration
strictly decreases. -/
def fcLoop (D : List Word) (ap : Bool) :
    Nat → List Word → Finset Word → Finset Word → Cache → FCResult
  | 0, _, vis, comp, c => ⟨comp, vis, c⟩
  | _ + 1, [], vis, comp, c => ⟨comp, vis, c⟩
  | fuel + 1, cur :: qrest, vis, comp, c =>
      let r := scanOthers D ap cur D vis comp [] c
      fcLoop D ap fuel (qrest ++ r.qadd) r.vis r.comp r.cache

/-- `find_component(word, visited)` (lines 171-181), called as in line 188
with `word` already added to `visited`: component and queue start at the
seed word. -/
def find_component (D : List Word) (ap : Bool) (word : Word) (vis : Finset Word)
    (c : Cache) : FCResult :=
  fcLoop D ap (D.length + 2) [word] vis {word} c

/-- The outer loop of `_find_components` (lines 183-189): seed an unvisited
word, mark it visited, collect its component. -/
def fcOuter (D : List Word) (ap : Bool) :
    List Word → Finset Word → List (Finset Word) → Cache → List (Finset Word) × Cache
  | [], _, acc, c => (acc, c)
  | w :: ws, vis, acc, c =>
      if w ∉ vis then
        let r := find_component D ap w (insert w vis) c
        fcOuter D ap ws r.vis (acc ++ [r.comp]) r.cache
      else
        fcOuter D ap ws vis acc c

/-- `WordLadderVisualizer._find_components()` (lines 164-191): the list of
components, with the cache state it leaves behind. -/
def find_components (D : List Word) (ap : Bool) (c : Cache) : List (Finset Word) × Cache :=
  fcOuter D ap D ∅ [] c

def unionList (l : List (Finset Word)) : Finset Word := l.foldr (· ∪ ·) ∅

theorem mem_unionList {l : List (Finset Word)} {y : Word} :
    y ∈ unionList l ↔ ∃ s ∈ l, y ∈ s := by
  induction l with
  | nil => simp [unionList]
  | cons s l ih => simp [unionList, Finset.mem_union, ih.symm]

theorem unionList_append_single (l : List (Finset Word)) (s : Finset Word) :
    unionList (l ++ [s]) = unionList l ∪ s := by
  induction l with
  | nil => simp [unionList]
  | cons t l ih =>
    simp only [unionList, List.cons_append, List.foldr_cons] at ih ⊢
    rw [ih, Finset.union_assoc]

/-- Structural facts about one scan: the visited set and component both only
grow, every new component member was unvisited and comes from the scanned
list, new visited words are exactly new component members, and new queue words
are component members. -/
theorem scanOthers_spec (D : List Word) (ap : Bool) (cur : Word) :
    ∀ os vis comp qadd c, comp ⊆ vis →
      vis ⊆ (scanOthers D ap cur os vis comp qadd c).vis ∧
      comp ⊆ (scanOthers D ap cur os vis comp qadd c).comp ∧
      (scanOthers D ap cur os vis comp qadd c).comp ⊆
        (scanOthers D ap cur os vis comp qadd c).vis ∧
      (scanOthers D ap cur os vis comp qadd c).vis =
        vis ∪ (scanOthers D ap cur os vis comp qadd c).comp ∧
      (∀ y ∈ (scanOthers D ap cur os vis comp qadd c).comp,
        y ∈ comp ∨ (y ∉ vis ∧ y ∈ os)) ∧
      (∀ y ∈ (scanOthers D ap cur os vis comp qadd c).qadd,
        y ∈ qadd ∨ y ∈ (scanOthers D ap cur os vis comp qadd c).comp) := by
  intro os
  induction os with
  | nil =>
    intro vis comp qadd c hcv
    refine ⟨Finset.Subset.refl _, Finset.Subset.refl _, hcv, ?_,
      fun y hy => Or.inl hy, fun y hy => Or.inl hy⟩
    exact (Finset.union_eq_left.2 hcv).symm
  | cons o os ih =>
    intro vis comp qadd c hcv
    by_cases ho : o ∉ vis
    · rw [scanOthers, if_pos ho]
      by_cases hfin : (distance D ap cur o c).1 ≠ Dist.inf
      · rw [if_pos hfin]
        have hcv2 : insert o comp ⊆ insert o vis := Finset.insert_subset_insert o hcv
        obtain ⟨h1, h2, h3, h4, h5, h6⟩ :=
          ih (insert o vis) (insert o comp) (qadd ++ [o]) (distance D ap cur o c).2 hcv2
        have hoc : o ∈ (scanOthers D ap cur os (insert o vis) (insert o comp)
            (qadd ++ [o]) (distance D ap cur o c).2).comp :=
          h2 (Finset.mem_insert_self o comp)
        refine ⟨(Finset.subset_insert o vis).trans h1,
          (Finset.subset_insert o comp).trans h2, h3, ?_, ?_, ?_⟩
        · rw [h4, Finset.insert_union, Finset.insert_eq_self.2]
          exact Finset.mem_union_right vis hoc
        · intro y hy
          rcases h5 y hy with hy2 | ⟨hy2, hy3⟩
          · rcases Finset.mem_insert.1 hy2 with rfl | hy4
            · exact Or.inr ⟨ho, List.mem_cons_self _ _⟩
            · exact Or.inl hy4
          · exact Or.inr ⟨fun hv => hy2 (Finset.mem_insert_of_mem hv),
              List.mem_cons_of_mem _ hy3⟩
        · intro y hy
          rcases h6 y hy with hy2 | hy2
          · rcases List.mem_append.1 hy2 with hy3 | hy3
            · exact Or.inl hy3
            · rw [List.mem_singleton] at hy3
              subst hy3
              exact Or.inr hoc
          · exact Or.inr hy2
      · rw [if_neg hfin]
        obtain ⟨h1, h2, h3, h4, h5, h6⟩ := ih vis comp qadd (distance D ap cur o c).2 hcv
        exact ⟨h1, h2, h3, h4,
          fun y hy => (h5 y hy).imp id (fun hp => ⟨hp.1, List.mem_cons_of_mem _ hp.2⟩), h6⟩
    · rw [scanOthers, if_neg ho]
      obtain ⟨h1, h2, h3, h4, h5, h6⟩ := ih vis comp qadd c hcv
      exact ⟨h1, h2, h3, h4,
        fun y hy => (h5 y hy).imp id (fun hp => ⟨hp.1, List.mem_cons_of_mem _ hp.2⟩), h6⟩

/-- Structural facts about the `while queue:` loop of `find_component`. -/
theorem fcLoop_spec (D : List Word) (ap : Bool) :
    ∀ fuel queue vis comp c, comp ⊆ vis →
      vis ⊆ (fcLoop D ap fuel queue vis comp c).vis ∧
      comp ⊆ (fcLoop D ap fuel queue vis comp c).comp ∧
      (fcLoop D ap fuel queue vis comp c).comp ⊆ (fcLoop D ap fuel queue vis comp c).vis ∧
      (fcLoop D ap fuel queue vis comp c).vis =
        vis ∪ (fcLoop D ap fuel queue vis comp c).comp ∧
      (∀ y ∈ (fcLoop D ap fuel queue vis comp c).comp, y ∈ comp ∨ (y ∉ vis ∧ y ∈ D)) := by
  intro fuel
  induction fuel with
  | zero =>
    intro queue vis comp c hcv
    exact ⟨Finset.Subset.refl _, Finset.Subset.refl _, hcv, (Finset.union_eq_left.2 hcv).symm,
      fun y hy => Or.inl hy⟩
  | succ fuel ih =>
    intro queue vis comp c hcv
    match queue with
    | [] =>
      exact ⟨Finset.Subset.refl _, Finset.Subset.refl _, hcv, (Finset.union_eq_left.2 hcv).symm,
        fun y hy => Or.inl hy⟩
    | cur :: qrest =>
      rw [fcLoop]
      obtain ⟨s1, s2, s3, s4, s5, -⟩ := scanOthers_spec D ap cur D vis comp [] c hcv
      obtain ⟨h1, h2, h3, h4, h5⟩ := ih (qrest ++ (scanOthers D ap cur D vis comp [] c).qadd)
        (scanOthers D ap cur D vis comp [] c).vis
        (scanOthers D ap cur D vis comp [] c).comp
        (scanOthers D ap cur D vis comp [] c).cache s3
      set F := fcLoop D ap fuel (qrest ++ (scanOthers D ap cur D vis comp [] c).qadd)
        (scanOthers D ap cur D vis comp [] c).vis
        (scanOthers D ap cur D vis comp [] c).comp
        (scanOthers D ap cur D vis comp [] c).cache with hF
      refine ⟨s1.trans h1, s2.trans h2, h3, ?_, ?_⟩
      · rw [h4, s4, Finset.union_assoc]
        congr 1
        exact Finset.union_eq_right.2 h2
      · intro y hy
        rcases h5 y hy with hy2 | ⟨hy2, hy3⟩
        · rcases s5 y hy2 with hy4 | ⟨hy4, hy5⟩
          · exact Or.inl hy4
          · exact Or.inr ⟨hy4, hy5⟩
        · exact Or.inr ⟨fun hv => hy2 (s1 hv), hy3⟩

/-- Structural facts about `find_component` as called from the outer loop:
the seed belongs to its component, new visited words are the component, and
every component member is either the seed or a previously unvisited
dictionary word. -/
theorem find_component_spec (D : List Word) (ap : Bool) (word : Word) (vis : Finset Word)
    (c : Cache) :
    word ∈ (find_component D ap word (insert word vis) c).comp ∧
    (find_component D ap word (insert word vis) c).comp ⊆
      (find_component D ap word (insert word vis) c).vis ∧
    (find_component D ap word (insert word vis) c).vis =
      insert word vis ∪ (find_component D ap word (insert word vis) c).comp ∧
    (∀ y ∈ (find_component D ap word (insert word vis) c).comp,
      y = word ∨ (y ∉ insert word vis ∧ y ∈ D)) := by
  have hcv : ({word} : Finset Word) ⊆ insert word vis := by
    intro y hy
    rw [Finset.mem_singleton] at hy
    rw [hy]
    exact Finset.mem_insert_self word vis
  obtain ⟨h1, h2, h3, h4, h5⟩ :=
    fcLoop_spec D ap (D.length + 2) [word] (insert word vis) {word} c hcv
  refine ⟨h2 (Finset.mem_singleton_self word), h3, h4, ?_⟩
  intro y hy
  rcases h5 y hy with hy2 | hy2
  · exact Or.inl (Finset.mem_singleton.1 hy2)
  · exact Or.inr hy2

/-- Structural facts about the outer loop of `_find_components`: components
stay inside the dictionary, stay pairwise disjoint, their union extends the
visited set, and covers every processed word. -/
theorem fcOuter_spec (D : List Word) (ap : Bool) :
    ∀ ws vis acc c,
      (∀ w ∈ ws, w ∈ D) →
      (∀ s ∈ acc, s ⊆ D.toFinset) →
      (vis = unionList acc) →
      List.Pairwise (fun s t => Disjoint s t) acc →
      (∀ s ∈ (fcOuter D ap ws vis acc c).1, s ⊆ D.toFinset) ∧
      List.Pairwise (fun s t => Disjoint s t) (fcOuter D ap ws vis acc c).1 ∧
      vis ⊆ unionList (fcOuter D ap ws vis acc c).1 ∧
      (∀ w ∈ ws, w ∈ unionList (fcOuter D ap ws vis acc c).1) := by
  intro ws
  induction ws with
  | nil =>
    intro vis acc c _ hacc hvis hdisj
    rw [fcOuter]
    refine ⟨hacc, hdisj, ?_, by simp⟩
    rw [hvis]
  | cons w ws ih =>
    intro vis acc c hws hacc hvis hdisj
    rw [fcOuter]
    by_cases hw : w ∉ vis
    · rw [if_pos hw]
      obtain ⟨f1, f2, f3, f4⟩ := find_component_spec D ap w vis c
      have hwD : w ∈ D := hws w (List.mem_cons_self _ _)
      have hcompD : (find_component D ap w (insert w vis) c).comp ⊆ D.toFinset := by
        intro y hy
        rcases f4 y hy with rfl | ⟨-, hy2⟩
        · exact List.mem_toFinset.2 hwD
        · exact List.mem_toFinset.2 hy2
      have hvis2 : (find_component D ap w (insert w vis) c).vis =
          unionList (acc ++ [(find_component D ap w (insert w vis) c).comp]) := by
        rw [unionList_append_single, ← hvis, f3, Finset.insert_union,
          Finset.insert_eq_self.2 (Finset.mem_union_right vis f1)]
      have hdisj2 : List.Pairwise (fun s t => Disjoint s t)
          (acc ++ [(find_component D ap w (insert w vis) c).comp]) := by
        rw [List.pairwise_append]
        refine ⟨hdisj, List.pairwise_singleton _ _, ?_⟩
        intro s hs t ht
        rw [List.mem_singleton] at ht
        subst ht
        rw [Finset.disjoint_left]
        intro y hys hyt
        have hyvis : y ∈ vis := by
          rw [hvis]
          exact mem_unionList.2 ⟨s, hs, hys⟩
        rcases f4 y hyt with rfl | ⟨hy2, -⟩
        · exact hw hyvis
        · exact hy2 (Finset.mem_insert_of_mem hyvis)
      have haccD : ∀ s ∈ acc ++ [(find_component D ap w (insert w vis) c).comp],
          s ⊆ D.toFinset := by
        intro s hs
        rcases List.mem_append.1 hs with hs2 | hs2
        · exact hacc s hs2
        · rw [List.mem_singleton] at hs2
          rw [hs2]
          exact hcompD
      obtain ⟨g1, g2, g3, g4⟩ := ih (find_component D ap w (insert w vis) c).vis
        (acc ++ [(find_component D ap w (insert w vis) c).comp])
        (find_component D ap w (insert w vis) c).cache
        (fun x hx => hws x (List.mem_cons_of_mem _ hx)) haccD hvis2 hdisj2
      refine ⟨g1, g2, ?_, ?_⟩
      · intro y hy
        refine g3 ?_
        rw [f3]
        exact Finset.mem_union_left _ (Finset.mem_insert_of_mem hy)
      · intro x hx
        rcases List.mem_cons.1 hx with rfl | hx2
        · refine g3 ?_
          rw [f3]
          exact Finset.mem_union_right _ f1
        · exact g4 x hx2
    · rw [if_neg hw]
      rw [not_not] at hw
      obtain ⟨g1, g2, g3, g4⟩ := ih vis acc c
        (fun x hx => hws x (List.mem_cons_of_mem _ hx)) hacc hvis hdisj
      refine ⟨g1, g2, g3, ?_⟩
      intro x hx
      rcases List.mem_cons.1 hx with rfl | hx2
      · exact g3 hw
      · exact g4 x hx2

/-- C1: for every dictionary (any order, any possessive setting, any starting
cache state) the components returned by `_find_components` partition the
dictionary — their union is exactly the dictionary and they are pairwise
disjoint — and singleton components occur for isolated words, witnessed
concretely by the dictionary with the words cat, cut, zzz, where the isolated
word zzz forms the singleton component. -/
theorem C1_partition :
    (∀ (D : List Word) (ap : Bool) (c : Cache),
        unionList (find_components D ap c).1 = D.toFinset ∧
        List.Pairwise (fun s t => Disjoint s t) (find_components D ap c).1) ∧
    ({wordZzz} : Finset Word) ∈ (find_components [wordCat, wordCut, wordZzz] true []).1 := by
  constructor
  · intro D ap c
    obtain ⟨g1, g2, g3, g4⟩ := fcOuter_spec D ap D ∅ [] c (fun w hw => hw)
      (fun s hs => absurd hs (List.not_mem_nil s)) (by simp [unionList]) List.Pairwise.nil
    refine ⟨?_, g2⟩
    apply Finset.Subset.antisymm
    · intro y hy
      obtain ⟨s, hs, hys⟩ := mem_unionList.1 hy
      exact g1 s hs hys
    · intro y hy
      exact g4 y (List.mem_toFinset.1 hy)
  · decide

/-! ## Connectivity and the semantics of `_find_components` -/

/-- Two words are connected: some chain of in-dictionary one-edit steps leads
from `a` to `b`. -/
def ConnD (D : List Word) (ap : Bool) (a b : Word) : Prop :=
  ∃ k, Reach (transformsList ap) D a b k

theorem ConnD.refl (D : List Word) (ap : Bool) (a : Word) : ConnD D ap a a :=
  ⟨0, Reach.refl a⟩

theorem ConnD.trans_conn {D : List Word} {ap : Bool} {a b c : Word}
    (h1 : ConnD D ap a b) (h2 : ConnD D ap b c) : ConnD D ap a c := by
  obtain ⟨m, hm⟩ := h1
  obtain ⟨n, hn⟩ := h2
  exact ⟨m + n, hm.trans_chain hn⟩

theorem ConnD.symm_conn {D : List Word} {ap : Bool} {a b : Word}
    (hD : ∀ w ∈ D, LowerWord w) (ha : a ∈ D) (h : ConnD D ap a b) : ConnD D ap b a := by
  obtain ⟨m, hm⟩ := h
  exact ⟨m, hm.symm_chain hD ha⟩

theorem IsDistSpec.conn_of_ne_inf {D : List Word} {ap : Bool} {x y : Word} {v : Dist}
    (h : IsDistSpec D ap x y v) (hne : v ≠ Dist.inf) : ConnD D ap x y := by
  unfold IsDistSpec at h
  by_cases hxy : x = y
  · rw [hxy]
    exact ConnD.refl D ap y
  · rw [if_neg hxy] at h
    by_cases hmem : x ∉ D ∨ y ∉ D
    · rw [if_pos hmem] at h
      exact absurd h hne
    · rw [if_neg hmem] at h
      match v, h with
      | .fin r, ⟨ha, _⟩ => exact ⟨r, ha⟩
      | .inf, _ => exact absurd rfl hne

theorem IsDistSpec.ne_inf_of_conn {D : List Word} {ap : Bool} {x y : Word} {v : Dist}
    (h : IsDistSpec D ap x y v) (hx : x ∈ D) (hy : y ∈ D) (hc : ConnD D ap x y) :
    v ≠ Dist.inf := by
  unfold IsDistSpec at h
  by_cases hxy : x = y
  · rw [if_pos hxy] at h
    rw [h]
    exact fun hcon => Dist.noConfusion hcon
  · rw [if_neg hxy, if_neg (by push_neg; exact ⟨hx, hy⟩)] at h
    match v, h with
    | .fin r, _ => exact fun hcon => Dist.noConfusion hcon
    | .inf, hall =>
      obtain ⟨k, hk⟩ := hc
      exact absurd hk (hall k)

theorem scanOthers_vis_mono (D : List Word) (ap : Bool) (cur : Word) :
    ∀ os vis comp qadd c, vis ⊆ (scanOthers D ap cur os vis comp qadd c).vis := by
  intro os
  induction os with
  | nil =>
    intro vis comp qadd c
    exact Finset.Subset.refl _
  | cons o os ih =>
    intro vis comp qadd c
    by_cases ho : o ∉ vis
    · rw [scanOthers, if_pos ho]
      by_cases hfin : (distance D ap cur o c).1 ≠ Dist.inf
      · rw [if_pos hfin]
        exact (Finset.subset_insert o vis).trans (ih _ _ _ _)
      · rw [if_neg hfin]
        exact ih _ _ _ _
    · rw [scanOthers, if_neg ho]
      exact ih _ _ _ _

/-- Queue words only accumulate during a scan, and every component member is
either an old one or was enqueued by the scan. -/
theorem scanOthers_qadd (D : List Word) (ap : Bool) (cur : Word) :
    ∀ os vis comp qadd c,
      (∀ y ∈ qadd, y ∈ (scanOthers D ap cur os vis comp qadd c).qadd) ∧
      (∀ y ∈ (scanOthers D ap cur os vis comp qadd c).comp,
        y ∈ comp ∨ y ∈ (scanOthers D ap cur os vis comp qadd c).qadd) := by
  intro os
  induction os with
  | nil =>
    intro vis comp qadd c
    exact ⟨fun y hy => hy, fun y hy => Or.inl hy⟩
  | cons o os ih =>
    intro vis comp qadd c
    by_cases ho : o ∉ vis
    · rw [scanOthers, if_pos ho]
      by_cases hfin : (distance D ap cur o c).1 ≠ Dist.inf
      · rw [if_pos hfin]
        obtain ⟨m1, m2⟩ := ih (insert o vis) (insert o comp) (qadd ++ [o])
          (distance D ap cur o c).2
        refine ⟨fun y hy => m1 y (List.mem_append_left _ hy), ?_⟩
        intro y hy
        rcases m2 y hy with hy2 | hy2
        · rcases Finset.mem_insert.1 hy2 with rfl | hy3
          · exact Or.inr (m1 y (List.mem_append_right _ (List.mem_singleton_self y)))
          · exact Or.inl hy3
        · exact Or.inr hy2
      · rw [if_neg hfin]
        exact ih vis comp qadd (distance D ap cur o c).2
    · rw [scanOthers, if_neg ho]
      exact ih vis comp qadd c

/-- Semantic facts about one scan over an all-lowercase dictionary from a
semantically correct cache: the cache stays correct, every new component
member is a dictionary word connected to the scanned word, and every scanned
dictionary word connected to it ends up visited (because `distance` decides
full reachability). -/
theorem scanOthers_sem {D : List Word} {ap : Bool} {cur : Word}
    (hD : ∀ w ∈ D, LowerWord w) (hcur : cur ∈ D) :
    ∀ os vis comp qadd c, (∀ o ∈ os, o ∈ D) → CacheGood D ap c →
      CacheGood D ap (scanOthers D ap cur os vis comp qadd c).cache ∧
      (∀ y ∈ (scanOthers D ap cur os vis comp qadd c).comp,
        y ∈ comp ∨ (y ∈ D ∧ ConnD D ap cur y)) ∧
      (∀ o ∈ os, ConnD D ap cur o → o ∈ (scanOthers D ap cur os vis comp qadd c).vis) := by
  intro os
  induction os with
  | nil =>
    intro vis comp qadd c _ hc
    exact ⟨hc, fun y hy => Or.inl hy, fun o ho => absurd ho (List.not_mem_nil o)⟩
  | cons o os ih =>
    intro vis comp qadd c hos hc
    have hoD : o ∈ D := hos o (List.mem_cons_self _ _)
    have hos2 : ∀ x ∈ os, x ∈ D := fun x hx => hos x (List.mem_cons_of_mem _ hx)
    by_cases ho : o ∉ vis
    · rw [scanOthers, if_pos ho]
      obtain ⟨hspec, hc2⟩ := @distance_spec D ap cur o c hD hc
      by_cases hfin : (distance D ap cur o c).1 ≠ Dist.inf
      · rw [if_pos hfin]
        obtain ⟨g1, g2, g3⟩ := ih (insert o vis) (insert o comp) (qadd ++ [o])
          (distance D ap cur o c).2 hos2 hc2
        refine ⟨g1, ?_, ?_⟩
        · intro y hy
          rcases g2 y hy with hy2 | hy2
          · rcases Finset.mem_insert.1 hy2 with rfl | hy3
            · exact Or.inr ⟨hoD, hspec.conn_of_ne_inf hfin⟩
            · exact Or.inl hy3
          · exact Or.inr hy2
        · intro x hx hconn
          rcases List.mem_cons.1 hx with rfl | hx2
          · exact scanOthers_vis_mono D ap cur os (insert x vis) (insert x comp)
              (qadd ++ [x]) (distance D ap cur x c).2 (Finset.mem_insert_self x vis)
          · exact g3 x hx2 hconn
      · rw [if_neg hfin]
        obtain ⟨g1, g2, g3⟩ := ih vis comp qadd (distance D ap cur o c).2 hos2 hc2
        refine ⟨g1, g2, ?_⟩
        intro x hx hconn
        rcases List.mem_cons.1 hx with rfl | hx2
        · exact absurd (hspec.ne_inf_of_conn hcur hoD hconn) (not_not.2 (not_not.1 hfin))
        · exact g3 x hx2 hconn
    · rw [scanOthers, if_neg ho]
      obtain ⟨g1, g2, g3⟩ := ih vis comp qadd c hos2 hc
      refine ⟨g1, g2, ?_⟩
      intro x hx hconn
      rcases List.mem_cons.1 hx with rfl | hx2
      · exact scanOthers_vis_mono D ap cur os vis comp qadd c (not_not.1 ho)
      · exact g3 x hx2 hconn

theorem scanOthers_measure (D : List Word) (ap : Bool) (cur : Word) :
    ∀ os vis comp qadd c, (∀ o ∈ os, o ∈ D) →
      (D.toFinset \ (scanOthers D ap cur os vis comp qadd c).vis).card
          + (scanOthers D ap cur os vis comp qadd c).qadd.length
        ≤ (D.toFinset \ vis).card + qadd.length := by
  intro os
  induction os with
  | nil =>
    intro vis comp qadd c _
    exact le_refl _
  | cons o os ih =>
    intro vis comp qadd c hos
    have hoD : o ∈ D := hos o (List.mem_cons_self _ _)
    have hos2 : ∀ x ∈ os, x ∈ D := fun x hx => hos x (List.mem_cons_of_mem _ hx)
    by_cases ho : o ∉ vis
    · rw [scanOthers, if_pos ho]
      by_cases hfin : (distance D ap cur o c).1 ≠ Dist.inf
      · rw [if_pos hfin]
        have h2 := ih (insert o vis) (insert o comp) (qadd ++ [o])
          (distance D ap cur o c).2 hos2
        have hw : o ∈ D.toFinset \ vis := by
          simp only [Finset.mem_sdiff, List.mem_toFinset]
          exact ⟨hoD, ho⟩
        have hcard : ((D.toFinset \ vis).erase o).card + 1 = (D.toFinset \ vis).card :=
          Finset.card_erase_add_one hw
        rw [← Finset.sdiff_insert] at hcard
        rw [List.length_append, List.length_singleton] at h2
        omega
      · rw [if_neg hfin]
        exact ih vis comp qadd (distance D ap cur o c).2 hos2
    · rw [scanOthers, if_neg ho]
      exact ih vis comp qadd c hos2

/-- Semantic correctness of the `while queue:` loop of `find_component` over
an all-lowercase dictionary: starting from a state whose component members are
dictionary words connected to the seed, whose processed members are fully
expanded, and whose visited words connected to the seed are already in the
component, the loop ends (within its fuel) with a semantically correct cache,
a component of dictionary words connected to the seed, every component member
fully expanded into the final visited set, and every visited word connected to
the seed inside the component. -/
theorem fcLoop_sem {D : List Word} {ap : Bool} {seed : Word}
    (hD : ∀ w ∈ D, LowerWord w) :
    ∀ fuel queue vis comp c,
      (D.toFinset \ vis).card + queue.length < fuel →
      CacheGood D ap c →
      (∀ x ∈ comp, x ∈ D) →
      (∀ x ∈ queue, x ∈ comp) →
      (∀ x ∈ comp, ConnD D ap seed x) →
      (∀ x ∈ comp, x ∉ queue → ∀ o ∈ D, ConnD D ap x o → o ∈ vis) →
      (∀ y ∈ vis, ConnD D ap seed y → y ∈ comp) →
      comp ⊆ vis →
      CacheGood D ap (fcLoop D ap fuel queue vis comp c).cache ∧
      (∀ y ∈ (fcLoop D ap fuel queue vis comp c).comp, y ∈ D ∧ ConnD D ap seed y) ∧
      (∀ x ∈ (fcLoop D ap fuel queue vis comp c).comp, ∀ o ∈ D,
        ConnD D ap x o → o ∈ (fcLoop D ap fuel queue vis comp c).vis) ∧
      (∀ y ∈ (fcLoop D ap fuel queue vis comp c).vis,
        ConnD D ap seed y → y ∈ (fcLoop D ap fuel queue vis comp c).comp) := by
  intro fuel
  induction fuel with
  | zero =>
    intro queue vis comp c hmeas
    omega
  | succ fuel ih =>
    intro queue vis comp c hmeas hc hcompD hqc hsound hclosed hvismem hcv
    match queue with
    | [] =>
      refine ⟨hc, fun y hy => ⟨hcompD y hy, hsound y hy⟩, ?_, hvismem⟩
      intro x hx o hoD hconn
      exact hclosed x hx (List.not_mem_nil x) o hoD hconn
    | cur :: qrest =>
      rw [fcLoop]
      have hcurC : cur ∈ comp := hqc cur (List.mem_cons_self _ _)
      have hcurD : cur ∈ D := hcompD cur hcurC
      obtain ⟨s1, s2, s3, s4, s5, s6⟩ := scanOthers_spec D ap cur D vis comp [] c hcv
      obtain ⟨m1, m2, m3⟩ := scanOthers_sem hD hcurD D vis comp [] c (fun o ho => ho) hc
      have hmeas2 := scanOthers_measure D ap cur D vis comp [] c (fun o ho => ho)
      rw [List.length_nil] at hmeas2
      simp only [List.length_cons] at hmeas
      refine ih (qrest ++ (scanOthers D ap cur D vis comp [] c).qadd)
        (scanOthers D ap cur D vis comp [] c).vis
        (scanOthers D ap cur D vis comp [] c).comp
        (scanOthers D ap cur D vis comp [] c).cache
        (by rw [List.length_append]; omega) m1 ?_ ?_ ?_ ?_ ?_ s3
      · intro y hy
        rcases s5 y hy with hy2 | ⟨-, hy3⟩
        · exact hcompD y hy2
        · exact hy3
      · intro x hx
        rcases List.mem_append.1 hx with hx2 | hx2
        · exact s2 (hqc x (List.mem_cons_of_mem _ hx2))
        · rcases s6 x hx2 with hx3 | hx3
          · exact absurd hx3 (List.not_mem_nil x)
          · exact hx3
      · intro y hy
        rcases m2 y hy with hy2 | ⟨-, hy3⟩
        · exact hsound y hy2
        · exact (hsound cur hcurC).trans_conn hy3
      · intro x hx hxq o hoD hconn
        rcases (scanOthers_qadd D ap cur D vis comp [] c).2 x hx with hx2 | hx2
        · by_cases hxold : x ∈ cur :: qrest
          · rcases List.mem_cons.1 hxold with rfl | hx3
            · exact m3 o hoD hconn
            · exact absurd (List.mem_append_left _ hx3) hxq
          · exact s1 (hclosed x hx2 hxold o hoD hconn)
        · exact absurd (List.mem_append_right _ hx2) hxq
      · intro y hy hconn
        rw [s4] at hy
        rcases Finset.mem_union.1 hy with hy2 | hy2
        · exact s2 (hvismem y hy2 hconn)
        · exact hy2

/-- Semantic correctness of `find_component` as called by the outer loop of
`_find_components`: given a seed dictionary word not yet visited and a visited
set that is a union of already-completed components (so it is closed under
connectivity and disjoint from the seed's class), the returned component is
exactly the set of dictionary words connected to the seed. -/
theorem find_component_sem {D : List Word} {ap : Bool} {word : Word} {vis0 : Finset Word}
    {c : Cache} (hD : ∀ w ∈ D, LowerWord w) (hc : CacheGood D ap c) (hwD : word ∈ D)
    (hwv : word ∉ vis0) (hvisD : ∀ y ∈ vis0, y ∈ D)
    (hvisClosed : ∀ y ∈ vis0, ∀ o ∈ D, ConnD D ap y o → o ∈ vis0) :
    CacheGood D ap (find_component D ap word (insert word vis0) c).cache ∧
    (∀ y, y ∈ (find_component D ap word (insert word vis0) c).comp ↔
      (y ∈ D ∧ ConnD D ap word y)) ∧
    (∀ y ∈ (find_component D ap word (insert word vis0) c).vis, y ∈ D) ∧
    (∀ y ∈ (find_component D ap word (insert word vis0) c).vis, ∀ o ∈ D,
      ConnD D ap y o → o ∈ (find_component D ap word (insert word vis0) c).vis) := by
  have hmeas : (D.toFinset \ insert word vis0).card + ([word] : List Word).length
      < D.length + 2 := by
    have hs : (D.toFinset \ insert word vis0).card ≤ D.toFinset.card :=
      Finset.card_le_card Finset.sdiff_subset
    have hl : D.toFinset.card ≤ D.length := D.toFinset_card_le
    simp only [List.length_singleton]
    omega
  obtain ⟨c1, c2, c3, c4⟩ := @fcLoop_sem D ap word hD (D.length + 2) [word]
    (insert word vis0) {word} c hmeas hc
    (fun x hx => by rwa [Finset.mem_singleton.1 hx])
    (fun x hx => by rw [List.mem_singleton.1 hx]; exact Finset.mem_singleton_self word)
    (fun x hx => by rw [Finset.mem_singleton.1 hx]; exact ConnD.refl D ap word)
    (fun x hx hxq => absurd (by rw [Finset.mem_singleton.1 hx]; exact List.mem_singleton_self word) hxq)
    (fun y hy hconn => by
      rcases Finset.mem_insert.1 hy with rfl | hy2
      · exact Finset.mem_singleton_self y
      · exact absurd (hvisClosed y hy2 word hwD (hconn.symm_conn hD hwD)) hwv)
    (fun y hy => by rw [Finset.mem_singleton.1 hy]; exact Finset.mem_insert_self word vis0)
  obtain ⟨f1, f2, f3, f4⟩ := find_component_spec D ap word vis0 c
  refine ⟨c1, ?_, ?_, ?_⟩
  · intro y
    constructor
    · exact c2 y
    · rintro ⟨hyD, hconn⟩
      exact c4 y (c3 word f1 y hyD hconn) hconn
  · intro y hy
    rw [f3] at hy
    rcases Finset.mem_union.1 hy with hy2 | hy2
    · rcases Finset.mem_insert.1 hy2 with rfl | hy3
      · exact hwD
      · exact hvisD y hy3
    · exact (c2 y hy2).1
  · intro y hy o hoD hconn
    rw [f3] at hy
    rcases Finset.mem_union.1 hy with hy2 | hy2
    · rcases Finset.mem_insert.1 hy2 with rfl | hy3
      · exact c3 y f1 o hoD hconn
      · rw [f3]
        exact Finset.mem_union_left _
          (Finset.mem_insert_of_mem (hvisClosed y hy3 o hoD hconn))
    · exact c3 y hy2 o hoD hconn

/-- Semantic correctness of the outer loop of `_find_components`: every
returned component is coherent (all members pairwise connected) and closed
(contains every dictionary word connected to any of its members). -/
theorem fcOuter_sem {D : List Word} {ap : Bool} (hD : ∀ w ∈ D, LowerWord w) :
    ∀ ws vis acc c,
      (∀ w ∈ ws, w ∈ D) →
      CacheGood D ap c →
      vis = unionList acc →
      (∀ y ∈ vis, y ∈ D) →
      (∀ y ∈ vis, ∀ o ∈ D, ConnD D ap y o → o ∈ vis) →
      (∀ s ∈ acc, ∀ a ∈ s, ∀ b ∈ s, ConnD D ap a b) →
      (∀ s ∈ acc, ∀ a ∈ s, ∀ o ∈ D, ConnD D ap a o → o ∈ s) →
      (∀ s ∈ (fcOuter D ap ws vis acc c).1, ∀ a ∈ s, ∀ b ∈ s, ConnD D ap a b) ∧
      (∀ s ∈ (fcOuter D ap ws vis acc c).1, ∀ a ∈ s, ∀ o ∈ D, ConnD D ap a o → o ∈ s) := by
  intro ws
  induction ws with
  | nil =>
    intro vis acc c _ _ _ _ _ hcoh hclo
    rw [fcOuter]
    exact ⟨hcoh, hclo⟩
  | cons w ws ih =>
    intro vis acc c hws hc hvis hvisD hvisClosed hcoh hclo
    rw [fcOuter]
    by_cases hw : w ∉ vis
    · rw [if_pos hw]
      have hwD : w ∈ D := hws w (List.mem_cons_self _ _)
      obtain ⟨e1, e2, e3, e4⟩ := find_component_sem hD hc hwD hw hvisD hvisClosed
      obtain ⟨f1, f2, f3, f4⟩ := find_component_spec D ap w vis c
      have hcoh2 : ∀ a ∈ (find_component D ap w (insert w vis) c).comp,
          ∀ b ∈ (find_component D ap w (insert w vis) c).comp, ConnD D ap a b := by
        intro a hax b hbx
        have ha := (e2 a).1 hax
        have hb := (e2 b).1 hbx
        exact (ha.2.symm_conn hD hwD).trans_conn hb.2
      have hclo2 : ∀ a ∈ (find_component D ap w (insert w vis) c).comp,
          ∀ o ∈ D, ConnD D ap a o → o ∈ (find_component D ap w (insert w vis) c).comp := by
        intro a hax o hoD hconn
        have ha := (e2 a).1 hax
        exact (e2 o).2 ⟨hoD, ha.2.trans_conn hconn⟩
      have hvis2 : (find_component D ap w (insert w vis) c).vis =
          unionList (acc ++ [(find_component D ap w (insert w vis) c).comp]) := by
        rw [unionList_append_single, ← hvis, f3, Finset.insert_union,
          Finset.insert_eq_self.2 (Finset.mem_union_right vis f1)]
      refine ih (find_component D ap w (insert w vis) c).vis
        (acc ++ [(find_component D ap w (insert w vis) c).comp])
        (find_component D ap w (insert w vis) c).cache
        (fun x hx => hws x (List.mem_cons_of_mem _ hx)) e1 hvis2 e3 e4 ?_ ?_
      · intro s hs
        rcases List.mem_append.1 hs with hs2 | hs2
        · exact hcoh s hs2
        · rw [List.mem_singleton] at hs2
          rw [hs2]
          exact hcoh2
      · intro s hs
        rcases List.mem_append.1 hs with hs2 | hs2
        · exact hclo s hs2
        · rw [List.mem_singleton] at hs2
          rw [hs2]
          exact hclo2
    · rw [if_neg hw]
      exact ih vis acc c (fun x hx => hws x (List.mem_cons_of_mem _ hx)) hc hvis hvisD
        hvisClosed hcoh hclo

/-- C2 counterexample: in the dictionary holding the Python strings for cats
and cat-apostrophe-s, `_find_components` (run from a fresh cache) puts the two
words in different components, yet the distance from the possessive form to
the plain form is finite (it is 1): the claimed equivalence fails in this
dictionary because reachability is asymmetric on apostrophe words. -/
theorem C2_counterexample :
    ¬ (∃ s ∈ (find_components dictPoss true []).1, wordCatPoss ∈ s ∧ wordCats ∈ s) ∧
    (distance dictPoss true wordCatPoss wordCats []).1 ≠ Dist.inf := by
  constructor
  · decide
  · decide

/-- C2 (amended): over an all-lowercase dictionary, two dictionary words lie
in one component returned by `_find_components` (run from a fresh cache) if
and only if their distance (from a fresh cache) is finite. -/
theorem C2_component_iff (D : List Word) (ap : Bool) (hD : ∀ w ∈ D, LowerWord w)
    (a b : Word) (ha : a ∈ D) (hb : b ∈ D) :
    (∃ s ∈ (find_components D ap []).1, a ∈ s ∧ b ∈ s) ↔
      (distance D ap a b []).1 ≠ Dist.inf := by
  have hspec := (@distance_spec D ap a b [] hD (cacheGood_nil D ap)).1
  obtain ⟨coh, clo⟩ := fcOuter_sem hD D ∅ [] [] (fun w hw => hw) (cacheGood_nil D ap)
    rfl (fun y hy => absurd hy (Finset.not_mem_empty y))
    (fun y hy => absurd hy (Finset.not_mem_empty y))
    (fun s hs => absurd hs (List.not_mem_nil s))
    (fun s hs => absurd hs (List.not_mem_nil s))
  constructor
  · rintro ⟨s, hs, has, hbs⟩
    exact hspec.ne_inf_of_conn ha hb (coh s hs a has b hbs)
  · intro hne
    have hconn := hspec.conn_of_ne_inf hne
    obtain ⟨-, -, -, g4⟩ := fcOuter_spec D ap D ∅ [] [] (fun w hw => hw)
      (fun s hs => absurd hs (List.not_mem_nil s)) (by simp [unionList]) List.Pairwise.nil
    obtain ⟨s, hs, has⟩ := mem_unionList.1 (g4 a ha)
    exact ⟨s, hs, has, clo s hs a has b hb hconn⟩

theorem C2_component_iff_witness :
    (∀ w ∈ dictLower, LowerWord w) ∧ wordCat ∈ dictLower ∧ wordCut ∈ dictLower ∧
    ((∃ s ∈ (find_components dictLower true []).1, wordCat ∈ s ∧ wordCut ∈ s) ↔
      (distance dictLower true wordCat wordCut []).1 ≠ Dist.inf) :=
  ⟨by decide, by decide, by decide,
    C2_component_iff dictLower true (by decide) wordCat wordCut (by decide) (by decide)⟩

/-! ## `WordLadderFinder.find_paths` (wordLadderPathExample.py, lines 80-130) -/

/-- The per-word entry of the `paths` defaultdict: `(min_length, paths_set)`,
the length counting words (including the start), `inf` the default. -/
abbrev PEntry := Dist × Finset (List Word)

/-- The `paths` defaultdict, as an association list with shadowing writes. -/
abbrev PathsMap := List (Word × PEntry)

/-- `paths[w]` with the defaultdict default `(float('inf'), set())` (line 94). -/
def lookupP (m : PathsMap) (w : Word) : PEntry :=
  match m with
  | [] => (Dist.inf, ∅)
  | (w0, e) :: rest => if w0 = w then e else lookupP rest w

/-- `paths[w] = e`. -/
def updateP (m : PathsMap) (w : Word) (e : PEntry) : PathsMap := (w, e) :: m

/-- `n < d` where `d` may be `float('inf')` (line 123). -/
def Dist.ltN (n : Nat) : Dist → Bool
  | .inf => true
  | .fin m => n < m

/-- `n > d` where `d` may be `float('inf')` (line 103): false against `inf`. -/
def natGtDist (n : Nat) : Dist → Bool
  | .inf => false
  | .fin m => m < n

/-- The `for new_word in self._generate_transformations(current_word)` loop of
`find_paths` (lines 117-130): for each generated word in the dictionary, a
strictly shorter candidate replaces the entry and is enqueued, an equal-length
candidate is added to the existing path set without enqueueing, and longer
candidates are ignored.  Queue appends are collected in order. -/
def expandPaths (Dct : List Word) (path : List Word) :
    List Word → PathsMap → PathsMap × List (Word × List Word)
  | [], m => (m, [])
  | w :: ws, m =>
      if w ∈ Dct then
        let np := path ++ [w]
        let e := lookupP m w
        if Dist.ltN np.length e.1 then
          let r := expandPaths Dct path ws (updateP m w (Dist.fin np.length, {np}))
          (r.1, (w, np) :: r.2)
        else if Dist.fin np.length = e.1 then
          expandPaths Dct path ws (updateP m w (e.1, insert np e.2))
        else
          expandPaths Dct path ws m
      else
        expandPaths Dct path ws m

/-- The `while queue:` loop of `find_paths` (lines 97-130), collecting the
emitted records `(word, depth, paths-set)` of the depth-positive prints (the
depth-0 print is the bare start word, not a record).  Recursion is on a fuel
parameter kept strictly above `queue.length + phiP`, which every iteration
strictly decreases (`findPathsLoop_fuel`). -/
def findPathsLoop (Dct : List Word) (adds : List Word) (maxd : Nat) :
    Nat → List (Word × List Word) → PathsMap → List (Word × Nat × Finset (List Word))
  | 0, _, _ => []
  | _ + 1, [], _ => []
  | fuel + 1, (cur, path) :: rest, m =>
      if natGtDist path.length (lookupP m cur).1 then
        findPathsLoop Dct adds maxd fuel rest m
      else
        let emitted := if 0 < path.length - 1 then
            [(cur, path.length - 1, (lookupP m cur).2)] else []
        if maxd ≤ path.length - 1 then
          emitted ++ findPathsLoop Dct adds maxd fuel rest m
        else
          let r := expandPaths Dct path (finderTransformsList adds cur) m
          emitted ++ findPathsLoop Dct adds maxd fuel (rest ++ r.2) r.1

/-- `WordLadderFinder.find_paths(starting_word, max_depth)` (lines 80-130):
queue seeded with the start and its trivial path, `paths[start] = (1, {(start,)})`,
and the loop run with sufficient fuel. -/
def find_paths (Dct : List Word) (adds : List Word) (start : Word) (maxd : Nat) :
    List (Word × Nat × Finset (List Word)) :=
  findPathsLoop Dct adds maxd ((maxd + 2) * Dct.length + 2) [(start, [start])]
    (updateP [] start (Dist.fin 1, {[start]}))

/-- A `Dist` capped at `cap` (`inf` counts as `cap`): the termination potential
of one `paths` entry. -/
def capD (cap : Nat) : Dist → Nat
  | .inf => cap
  | .fin n => min cap n

/-- Termination potential of the `paths` map: the capped minimal lengths of
the dictionary words only ever decrease, and strictly on every enqueue. -/
def phiP (Dct : List Word) (cap : Nat) (m : PathsMap) : Nat :=
  Finset.sum Dct.toFinset (fun w => capD cap (lookupP m w).1)

theorem lookupP_updateP (m : PathsMap) (w : Word) (e : PEntry) (x : Word) :
    lookupP (updateP m w e) x = if w = x then e else lookupP m x := rfl

theorem phiP_update (Dct : List Word) (cap : Nat) (m : PathsMap) {w : Word} (e : PEntry)
    (hw : w ∈ Dct) :
    phiP Dct cap (updateP m w e) + capD cap (lookupP m w).1
      = phiP Dct cap m + capD cap e.1 := by
  have hw2 : w ∈ Dct.toFinset := List.mem_toFinset.2 hw
  have hsplit1 : phiP Dct cap (updateP m w e)
      = (Dct.toFinset.erase w).sum (fun x => capD cap (lookupP (updateP m w e) x).1)
        + capD cap e.1 := by
    rw [phiP, ← Finset.sum_erase_add _ _ hw2, lookupP_updateP, if_pos rfl]
  have hsplit2 : phiP Dct cap m
      = (Dct.toFinset.erase w).sum (fun x => capD cap (lookupP m x).1)
        + capD cap (lookupP m w).1 := by
    rw [phiP, ← Finset.sum_erase_add _ _ hw2]
  have hsame : (Dct.toFinset.erase w).sum (fun x => capD cap (lookupP (updateP m w e) x).1)
      = (Dct.toFinset.erase w).sum (fun x => capD cap (lookupP m x).1) := by
    apply Finset.sum_congr rfl
    intro x hx
    rw [lookupP_updateP, if_neg (Finset.ne_of_mem_erase hx).symm]
  omega

theorem expandPaths_measure (Dct : List Word) (path : List Word) (cap : Nat)
    (hlen : path.length + 1 < cap) :
    ∀ ws m, phiP Dct cap (expandPaths Dct path ws m).1
        + (expandPaths Dct path ws m).2.length
      ≤ phiP Dct cap m := by
  intro ws
  induction ws with
  | nil =>
    intro m
    simp [expandPaths]
  | cons w ws ih =>
    intro m
    by_cases hw : w ∈ Dct
    · rw [expandPaths, if_pos hw]
      by_cases hlt : Dist.ltN (path ++ [w]).length (lookupP m w).1 = true
      · rw [if_pos hlt]
        have hup := phiP_update Dct cap m
          (Dist.fin (path ++ [w]).length, {path ++ [w]}) hw
        rw [show (Dist.fin (path ++ [w]).length,
          ({path ++ [w]} : Finset (List Word))).1 = Dist.fin (path ++ [w]).length
          from rfl] at hup
        have hlt2 : capD cap (Dist.fin (path ++ [w]).length)
            < capD cap (lookupP m w).1 := by
          rw [List.length_append, List.length_singleton] at hlt ⊢
          match hm : (lookupP m w).1 with
          | .inf =>
            simp only [capD]
            omega
          | .fin q =>
            rw [hm] at hlt
            simp only [Dist.ltN, decide_eq_true_eq] at hlt
            simp only [capD]
            omega
        have h2 := ih (updateP m w (Dist.fin (path ++ [w]).length, {path ++ [w]}))
        simp only [List.length_cons]
        omega
      · rw [if_neg hlt]
        by_cases heq : Dist.fin (path ++ [w]).length = (lookupP m w).1
        · rw [if_pos heq]
          have hup := phiP_update Dct cap m
            ((lookupP m w).1, insert (path ++ [w]) (lookupP m w).2) hw
          rw [show ((lookupP m w).1,
            insert (path ++ [w]) (lookupP m w).2).1 = (lookupP m w).1 from rfl] at hup
          have h2 := ih (updateP m w ((lookupP m w).1, insert (path ++ [w]) (lookupP m w).2))
          omega
        · rw [if_neg heq]
          exact ih m
    · rw [expandPaths, if_neg hw]
      exact ih m

/-- Any two fuel values strictly above `queue.length + phiP` give the same
loop result: the fuel is a termination device, not part of the modelled
code. -/
theorem findPathsLoop_fuel (Dct adds : List Word) (maxd : Nat) :
    ∀ f g q m, q.length + phiP Dct (maxd + 2) m < f →
      q.length + phiP Dct (maxd + 2) m < g →
      findPathsLoop Dct adds maxd f q m = findPathsLoop Dct adds maxd g q m := by
  intro f
  induction f with
  | zero => intro g q m hf; omega
  | succ f ih =>
    intro g q m hf hg
    obtain ⟨g0, rfl⟩ : ∃ g0, g = g0 + 1 := ⟨g - 1, by omega⟩
    match q with
    | [] => rfl
    | (cur, path) :: rest =>
      simp only [findPathsLoop]
      simp only [List.length_cons] at hf hg
      by_cases hstale : natGtDist path.length (lookupP m cur).1 = true
      · rw [if_pos hstale, if_pos hstale]
        exact ih g0 rest m (by omega) (by omega)
      · rw [if_neg hstale, if_neg hstale]
        by_cases hbound : maxd ≤ path.length - 1
        · rw [if_pos hbound, if_pos hbound]
          rw [ih g0 rest m (by omega) (by omega)]
        · rw [if_neg hbound, if_neg hbound]
          have hlen : path.length + 1 < maxd + 2 := by omega
          have hexp := expandPaths_measure Dct path (maxd + 2) hlen
            (finderTransformsList adds cur) m
          rw [ih g0 (rest ++ (expandPaths Dct path (finderTransformsList adds cur) m).2)
            (expandPaths Dct path (finderTransformsList adds cur) m).1
            (by rw [List.length_append]; omega) (by rw [List.length_append]; omega)]

/-- Ladders as stored in the queue of `find_paths`: the path list from the
start to its endpoint, each extension being an in-dictionary transformation. -/
inductive LPath (T : Word → List Word) (Dct : List Word) (start : Word) :
    List Word → Word → Nat → Prop
  | base : LPath T Dct start [start] start 0
  | step {p : List Word} {b c : Word} {n : Nat} :
      LPath T Dct start p b n → c ∈ T b → c ∈ Dct → LPath T Dct start (p ++ [c]) c (n + 1)

theorem LPath.toReach {T : Word → List Word} {Dct : List Word} {start : Word}
    {p : List Word} {b : Word} {n : Nat} (h : LPath T Dct start p b n) :
    Reach T Dct start b n := by
  induction h with
  | base => exact Reach.refl start
  | step h ht hD ih => exact ih.step ht hD

theorem LPath.length_eq {T : Word → List Word} {Dct : List Word} {start : Word}
    {p : List Word} {b : Word} {n : Nat} (h : LPath T Dct start p b n) :
    p.length = n + 1 := by
  induction h with
  | base => rfl
  | step h ht hD ih => simp [List.length_append, ih]

/-- Every queue entry collected by the neighbor loop is the scanned word with
the current path extended by it, and is an in-dictionary generated word. -/
theorem expandPaths_pushes (Dct : List Word) (path : List Word) :
    ∀ ws m, ∀ e ∈ (expandPaths Dct path ws m).2,
      e.2 = path ++ [e.1] ∧ e.1 ∈ ws ∧ e.1 ∈ Dct := by
  intro ws
  induction ws with
  | nil =>
    intro m e he
    exact absurd he (List.not_mem_nil e)
  | cons w ws ih =>
    intro m e he
    by_cases hw : w ∈ Dct
    · rw [expandPaths, if_pos hw] at he
      by_cases hlt : Dist.ltN (path ++ [w]).length (lookupP m w).1 = true
      · rw [if_pos hlt] at he
        rcases List.mem_cons.1 he with rfl | he2
        · exact ⟨rfl, List.mem_cons_self _ _, hw⟩
        · obtain ⟨h1, h2, h3⟩ := ih _ e he2
          exact ⟨h1, List.mem_cons_of_mem _ h2, h3⟩
      · rw [if_neg hlt] at he
        by_cases heq : Dist.fin (path ++ [w]).length = (lookupP m w).1
        · rw [if_pos heq] at he
          obtain ⟨h1, h2, h3⟩ := ih _ e he
          exact ⟨h1, List.mem_cons_of_mem _ h2, h3⟩
        · rw [if_neg heq] at he
          obtain ⟨h1, h2, h3⟩ := ih _ e he
          exact ⟨h1, List.mem_cons_of_mem _ h2, h3⟩
    · rw [expandPaths, if_neg hw] at he
      obtain ⟨h1, h2, h3⟩ := ih _ e he
      exact ⟨h1, List.mem_cons_of_mem _ h2, h3⟩

/-- Record soundness of the `find_paths` loop: if every queue entry carries a
true ladder of length at most `maxd + 1`, then every emitted record is a word
within `maxd` in-dictionary transformations of the start, at its record
depth. -/
theorem findPathsLoop_records {Dct adds : List Word} {start : Word} {maxd : Nat} :
    ∀ fuel queue m,
      (∀ e ∈ queue, ∃ n, LPath (finderTransformsList adds) Dct start e.2 e.1 n ∧
        e.2.length ≤ maxd + 1) →
      ∀ r ∈ findPathsLoop Dct adds maxd fuel queue m,
        r.2.1 ≤ maxd ∧ Reach (finderTransformsList adds) Dct start r.1 r.2.1 := by
  intro fuel
  induction fuel with
  | zero =>
    intro queue m _ r hr
    exact absurd hr (List.not_mem_nil r)
  | succ fuel ih =>
    intro queue m hq
    match queue with
    | [] =>
      intro r hr
      exact absurd hr (List.not_mem_nil r)
    | (cur, path) :: rest =>
      obtain ⟨n, hlp0, hlen0⟩ := hq (cur, path) (List.mem_cons_self _ _)
      have hlp : LPath (finderTransformsList adds) Dct start path cur n := hlp0
      have hlen : path.length ≤ maxd + 1 := hlen0
      have hpl : path.length = n + 1 := hlp.length_eq
      have hrest : ∀ e ∈ rest, ∃ n2, LPath (finderTransformsList adds) Dct start e.2 e.1 n2 ∧
          e.2.length ≤ maxd + 1 := fun e he => hq e (List.mem_cons_of_mem _ he)
      simp only [findPathsLoop]
      by_cases hstale : natGtDist path.length (lookupP m cur).1 = true
      · rw [if_pos hstale]
        exact ih rest m hrest
      · rw [if_neg hstale]
        have hemit : ∀ r ∈ (if 0 < path.length - 1 then
            [(cur, path.length - 1, (lookupP m cur).2)] else []),
            r.2.1 ≤ maxd ∧ Reach (finderTransformsList adds) Dct start r.1 r.2.1 := by
          intro r hr
          by_cases hd : 0 < path.length - 1
          · rw [if_pos hd, List.mem_singleton] at hr
            subst hr
            constructor
            · show path.length - 1 ≤ maxd
              omega
            · show Reach (finderTransformsList adds) Dct start cur (path.length - 1)
              have hdn : path.length - 1 = n := by omega
              rw [hdn]
              exact hlp.toReach
          · rw [if_neg hd] at hr
            exact absurd hr (List.not_mem_nil r)
        by_cases hbound : maxd ≤ path.length - 1
        · rw [if_pos hbound]
          intro r hr
          rcases List.mem_append.1 hr with hr2 | hr2
          · exact hemit r hr2
          · exact ih rest m hrest r hr2
        · rw [if_neg hbound]
          intro r hr
          rcases List.mem_append.1 hr with hr2 | hr2
          · exact hemit r hr2
          · refine ih (rest ++ (expandPaths Dct path (finderTransformsList adds cur) m).2)
              (expandPaths Dct path (finderTransformsList adds cur) m).1 ?_ r hr2
            intro e he
            rcases List.mem_append.1 he with he2 | he2
            · exact hrest e he2
            · obtain ⟨h1, h2, h3⟩ := expandPaths_pushes Dct path
                (finderTransformsList adds cur) m e he2
              refine ⟨n + 1, ?_, ?_⟩
              · rw [h1]
                exact hlp.step h2 h3
              · rw [h1, List.length_append, List.length_singleton]
                omega

def wordCap : Word := ['c', 'a', 'p']
def wordBap : Word := ['b', 'a', 'p']
def wordCot : Word := ['c', 'o', 't']

theorem expandPaths_none (Dct : List Word) (path : List Word) :
    ∀ ws m, (∀ w ∈ ws, w ∉ Dct) → expandPaths Dct path ws m = (m, []) := by
  intro ws
  induction ws with
  | nil =>
    intro m _
    rfl
  | cons w ws ih =>
    intro m hws
    rw [expandPaths, if_neg (hws w (List.mem_cons_self _ _))]
    exact ih m (fun x hx => hws x (List.mem_cons_of_mem _ hx))

/-- When every queue entry is a bare one-word path whose transformations all
miss the dictionary, the loop emits nothing: the one pop prints only the bare
start line (not a record) and enqueues nothing. -/
theorem findPathsLoop_no_records {Dct adds : List Word} {maxd : Nat} :
    ∀ fuel queue m,
      (∀ e ∈ queue, e.2.length ≤ 1 ∧ ∀ w ∈ finderTransformsList adds e.1, w ∉ Dct) →
      findPathsLoop Dct adds maxd fuel queue m = [] := by
  intro fuel
  induction fuel with
  | zero =>
    intro queue m _
    rfl
  | succ fuel ih =>
    intro queue m hq
    match queue with
    | [] => rfl
    | (cur, path) :: rest =>
      obtain ⟨hlen0, hnone0⟩ := hq (cur, path) (List.mem_cons_self _ _)
      have hlen : path.length ≤ 1 := hlen0
      have hnone : ∀ w ∈ finderTransformsList adds cur, w ∉ Dct := hnone0
      have hrest : ∀ e ∈ rest, e.2.length ≤ 1 ∧
          ∀ w ∈ finderTransformsList adds e.1, w ∉ Dct :=
        fun e he => hq e (List.mem_cons_of_mem _ he)
      simp only [findPathsLoop]
      by_cases hstale : natGtDist path.length (lookupP m cur).1 = true
      · rw [if_pos hstale]
        exact ih rest m hrest
      · rw [if_neg hstale]
        have hd : ¬ (0 < path.length - 1) := by omega
        rw [if_neg hd]
        by_cases hbound : maxd ≤ path.length - 1
        · rw [if_pos hbound, List.nil_append]
          exact ih rest m hrest
        · rw [if_neg hbound, expandPaths_none Dct path (finderTransformsList adds cur) m hnone,
            List.nil_append, List.append_nil]
          exact ih rest m hrest

/-! ## Claim theorems: C5, C6, C7, C8 -/

/-- C5: every record emitted by `find_paths` has depth at most `max_depth`,
and its word is reachable from the start in exactly that many in-dictionary
one-edit transformations (so within `max_depth` of the start).  This is the
consequence of the `if depth >= max_depth: continue` hard stop on expansion at
line 113: queue entries always carry ladders of at most `max_depth + 1`
words. -/
theorem C5_depth_bound (Dct adds : List Word) (start : Word) (maxd : Nat)
    (r : Word × Nat × Finset (List Word)) (hr : r ∈ find_paths Dct adds start maxd) :
    r.2.1 ≤ maxd ∧ Reach (finderTransformsList adds) Dct start r.1 r.2.1 := by
  refine findPathsLoop_records _ _ _ ?_ r hr
  intro e he
  rw [List.mem_singleton] at he
  subst he
  exact ⟨0, LPath.base, by simp⟩

theorem C5_depth_bound_witness :
    ((wordCut, 1, ({[wordCat, wordCut]} : Finset (List Word))) ∈
      find_paths dictLower defaultAdditions wordCat 1) ∧
    ((wordCut, 1, ({[wordCat, wordCut]} : Finset (List Word))).2.1 ≤ 1 ∧
      Reach (finderTransformsList defaultAdditions) dictLower wordCat
        (wordCut, 1, ({[wordCat, wordCut]} : Finset (List Word))).1
        (wordCut, 1, ({[wordCat, wordCut]} : Finset (List Word))).2.1) :=
  ⟨by decide, C5_depth_bound dictLower defaultAdditions wordCat 1
    (wordCut, 1, {[wordCat, wordCut]}) (by decide)⟩

/-- C6 counterexample: at a concrete equal-length discovery the neighbor is
not re-enqueued.  With dictionary {bap}, current path [cat, cap] and the map
already holding bap at minimal length 3 with path {[cat, bat, bap]}, the
neighbor loop adds the second path to the set but returns no queue addition;
accordingly a full run over {cat, bat, cap, bap} from cat at depth 2 emits
exactly one record for bap (carrying both paths), not two. -/
theorem C6_counterexample :
    (expandPaths [wordBap] [wordCat, wordCap] [wordBap]
        [(wordBap, (Dist.fin 3, {[wordCat, wordBat, wordBap]}))]).2 = [] ∧
    lookupP (expandPaths [wordBap] [wordCat, wordCap] [wordBap]
        [(wordBap, (Dist.fin 3, {[wordCat, wordBat, wordBap]}))]).1 wordBap
      = (Dist.fin 3, {[wordCat, wordBat, wordBap], [wordCat, wordCap, wordBap]}) ∧
    (find_paths [wordCat, wordBat, wordCap, wordBap] defaultAdditions wordCat 2).filter
        (fun r => r.1 = wordBap)
      = [(wordBap, 2, {[wordCat, wordBat, wordBap], [wordCat, wordCap, wordBap]})] := by
  refine ⟨by decide, by decide, by decide⟩

/-- C6 (amended): when an in-dictionary neighbor's candidate path length
equals its recorded minimal depth, the new path is added to the neighbor's
existing path set and the neighbor is not re-enqueued — processing the
remaining neighbors continues from the updated map, contributing exactly the
remaining neighbors' queue additions. -/
theorem C6_equal_updates (Dct : List Word) (path : List Word) (w : Word) (ws : List Word)
    (m : PathsMap) (hw : w ∈ Dct)
    (heq : Dist.fin (path ++ [w]).length = (lookupP m w).1) :
    expandPaths Dct path (w :: ws) m =
      expandPaths Dct path ws
        (updateP m w ((lookupP m w).1, insert (path ++ [w]) (lookupP m w).2)) := by
  rw [expandPaths, if_pos hw]
  have hlt : Dist.ltN (path ++ [w]).length (lookupP m w).1 = false := by
    rw [← heq]
    simp [Dist.ltN]
  rw [if_neg (by rw [hlt]; exact Bool.false_ne_true), if_pos heq]

theorem C6_equal_updates_witness :
    wordBap ∈ [wordBap] ∧
    Dist.fin (([wordCat, wordCap] ++ [wordBap]).length)
      = (lookupP [(wordBap, (Dist.fin 3, {[wordCat, wordBat, wordBap]}))] wordBap).1 ∧
    expandPaths [wordBap] [wordCat, wordCap] [wordBap]
        [(wordBap, (Dist.fin 3, {[wordCat, wordBat, wordBap]}))] =
      expandPaths [wordBap] [wordCat, wordCap] []
        (updateP [(wordBap, (Dist.fin 3, {[wordCat, wordBat, wordBap]}))] wordBap
          ((lookupP [(wordBap, (Dist.fin 3, {[wordCat, wordBat, wordBap]}))] wordBap).1,
            insert ([wordCat, wordCap] ++ [wordBap])
              (lookupP [(wordBap, (Dist.fin 3, {[wordCat, wordBat, wordBap]}))] wordBap).2)) :=
  ⟨by decide, by decide,
    C6_equal_updates [wordBap] [wordCat, wordCap] wordBap []
      [(wordBap, (Dist.fin 3, {[wordCat, wordBat, wordBap]}))] (by decide) (by decide)⟩

/-- C7 counterexample: the start word cot is absent from the dictionary {cat},
yet `find_paths("cot", 1)` emits a record — cat is a one-edit transformation
of cot that is in the dictionary, so it is enqueued and emitted at depth 1.
The claimed empty result sequence is wrong. -/
theorem C7_counterexample :
    wordCot ∉ [wordCat] ∧
    find_paths [wordCat] defaultAdditions wordCot 1 =
      [(wordCat, 1, ({[wordCot, wordCat]} : Finset (List Word)))] := by
  refine ⟨by decide, by decide⟩

/-- C7 (amended): for a start word absent from the dictionary none of whose
one-edit transformations is in the dictionary either, `find_paths` yields an
empty record sequence for every `max_depth`: the start itself is never emitted
as a record, and nothing is ever enqueued. -/
theorem C7_unknown_start (Dct adds : List Word) (start : Word) (maxd : Nat)
    (_hstart : start ∉ Dct)
    (hnone : ∀ w ∈ finderTransformsList adds start, w ∉ Dct) :
    find_paths Dct adds start maxd = [] := by
  unfold find_paths
  refine findPathsLoop_no_records _ _ _ ?_
  intro e he
  rw [List.mem_singleton] at he
  subst he
  exact ⟨by simp, hnone⟩

theorem C7_unknown_start_witness :
    wordZzz ∉ [wordCat] ∧
    (∀ w ∈ finderTransformsList defaultAdditions wordZzz, w ∉ [wordCat]) ∧
    find_paths [wordCat] defaultAdditions wordZzz 5 = [] :=
  ⟨by decide, by decide,
    C7_unknown_start [wordCat] defaultAdditions wordZzz 5 (by decide) (by decide)⟩

/-- C8: with dictionary {cat, cut, bat}, `find_paths("cat", 1)` emits exactly
two records, both at depth 1 — cut with path set {[cat, cut]} and bat with
path set {[cat, bat]} — and no record for cat itself. -/
theorem C8_concrete :
    (find_paths [wordCat, wordCut, wordBat] defaultAdditions wordCat 1).length = 2 ∧
    (wordCut, 1, ({[wordCat, wordCut]} : Finset (List Word))) ∈
      find_paths [wordCat, wordCut, wordBat] defaultAdditions wordCat 1 ∧
    (wordBat, 1, ({[wordCat, wordBat]} : Finset (List Word))) ∈
      find_paths [wordCat, wordCut, wordBat] defaultAdditions wordCat 1 ∧
    (∀ r ∈ find_paths [wordCat, wordCut, wordBat] defaultAdditions wordCat 1,
      r.2.1 = 1 ∧ r.1 ≠ wordCat) := by
  refine ⟨by decide, by decide, by decide, by decide⟩

end WordLadder
